import Mathlib

/-!
# Verification of the srclib FS-backed graph store

Shallow embedding of `store/fs_store.go` (unit-level data files, the
multi-repo `Repos` scan) and of the tree-level def-query index
(`defQueryTreeIndex`), together with proofs and refutations of the
specification's claims about them.

Conventions:
* Go strings are Lean `String`s except where byte-level behavior matters
  (the multi-repo `after` computation), where they are `List Nat` byte lists.
* The binary codec is external to the store ("only its contract" is in
  scope per the spec): a data file is modelled as the list of records it
  frames, and the codec's reported encoded length is an arbitrary function
  `encLen` passed as a parameter.
* Go `int64`/`uint64` offsets are modelled as `Int`/`Nat`; the files
  involved are far below 2^63 bytes so overflow is not modelled.
-/

namespace Srclib

/-! ## Lexicographic order on lists (Go string/byte-slice comparison)

Go compares strings byte-wise; for valid UTF-8 this coincides with
codepoint-lexicographic order. `lexLt` is an executable lexicographic
strict order on lists, used for `List Char` (strings) and `List Nat`
(byte strings). -/

def lexLt {α : Type} [DecidableEq α] (lt : α → α → Bool) : List α → List α → Bool
  | [], [] => false
  | [], _ :: _ => true
  | _ :: _, [] => false
  | a :: x, b :: y => lt a b || (decide (a = b) && lexLt lt x y)

section LexOrder

variable {α : Type} [DecidableEq α] (lt : α → α → Bool)

theorem lexLt_irrefl (ltIrrefl : ∀ a, lt a a = false) :
    ∀ l, lexLt lt l l = false := by
  intro l
  induction l with
  | nil => rfl
  | cons a x ih => simp [lexLt, ltIrrefl, ih]

theorem lexLt_trans
    (ltTrans : ∀ a b c, lt a b = true → lt b c = true → lt a c = true) :
    ∀ l m r, lexLt lt l m = true → lexLt lt m r = true →
      lexLt lt l r = true := by
  intro l
  induction l with
  | nil =>
    intro m r h1 h2
    cases m with
    | nil => simp [lexLt] at h1
    | cons b y =>
      cases r with
      | nil => simp [lexLt] at h2
      | cons c z => simp [lexLt]
  | cons a x ih =>
    intro m r h1 h2
    cases m with
    | nil => simp only [lexLt] at h1; exact Bool.noConfusion h1
    | cons b y =>
      cases r with
      | nil => simp [lexLt] at h2
      | cons c z =>
        simp only [lexLt, Bool.or_eq_true, Bool.and_eq_true,
          decide_eq_true_eq] at h1 h2 ⊢
        obtain h1 | ⟨rfl, h1⟩ := h1 <;> obtain h2 | ⟨rfl, h2⟩ := h2
        · exact Or.inl (ltTrans _ _ _ h1 h2)
        · exact Or.inl h1
        · exact Or.inl h2
        · exact Or.inr ⟨rfl, ih y z h1 h2⟩

theorem lexLt_connex
    (ltConnex : ∀ a b, a ≠ b → lt a b = true ∨ lt b a = true) :
    ∀ l r, l ≠ r → lexLt lt l r = true ∨ lexLt lt r l = true := by
  intro l
  induction l with
  | nil =>
    intro r h
    cases r with
    | nil => exact absurd rfl h
    | cons b y => exact Or.inl (by simp [lexLt])
  | cons a x ih =>
    intro r h
    cases r with
    | nil => exact Or.inr (by simp [lexLt])
    | cons b y =>
      by_cases hab : a = b
      · subst hab
        have hxy : x ≠ y := fun hx => h (hx ▸ rfl)
        rcases ih y hxy with h1 | h1
        · exact Or.inl (by simp [lexLt, h1])
        · exact Or.inr (by simp [lexLt, h1])
      · rcases ltConnex a b hab with h1 | h1
        · exact Or.inl (by simp [lexLt, h1])
        · exact Or.inr (by simp [lexLt, h1])

/-- No list having `q` as a prefix is lexicographically below `q`. -/
theorem isPrefixOf_not_lexLt (ltIrrefl : ∀ a, lt a a = false) :
    ∀ q t : List α, q.isPrefixOf t = true → lexLt lt t q = false := by
  intro q
  induction q with
  | nil =>
    intro t _
    cases t with
    | nil => rfl
    | cons b y => rfl
  | cons a q ih =>
    intro t h
    cases t with
    | nil => simp [List.isPrefixOf] at h
    | cons b y =>
      simp only [List.isPrefixOf, Bool.and_eq_true, beq_iff_eq] at h
      obtain ⟨rfl, h⟩ := h
      simp [lexLt, ltIrrefl, ih y h]

/-- Anything strictly above `q` that does not extend `q` is strictly above
every extension of `q`. -/
theorem lexLt_append_of_not_isPrefixOf
    (ltConnex : ∀ a b, a ≠ b → lt a b = true ∨ lt b a = true) :
    ∀ q t e : List α, lexLt lt t q = false → q.isPrefixOf t = false →
      lexLt lt (q ++ e) t = true := by
  intro q
  induction q with
  | nil => intro t e h1 h2; simp [List.isPrefixOf] at h2
  | cons a q ih =>
    intro t e h1 h2
    cases t with
    | nil => simp [lexLt] at h1
    | cons b y =>
      simp only [lexLt, Bool.or_eq_false_iff, Bool.and_eq_false_iff,
        decide_eq_false_iff_not] at h1
      simp only [List.isPrefixOf, Bool.and_eq_false_iff, beq_eq_false_iff_ne,
        ne_eq] at h2
      obtain ⟨hba, h1⟩ := h1
      by_cases hab : a = b
      · subst hab
        have hy : lexLt lt y q = false := by
          rcases h1 with h1 | h1
          · exact absurd rfl h1
          · exact h1
        have hp : q.isPrefixOf y = false := by
          rcases h2 with h2 | h2
          · exact absurd rfl h2
          · exact h2
        simp [lexLt, List.cons_append, ih y e hy hp]
      · rcases ltConnex a b hab with h3 | h3
        · simp [lexLt, List.cons_append, h3]
        · rw [h3] at hba; exact Bool.noConfusion hba

theorem lexLt_asymm (ltIrrefl : ∀ a, lt a a = false)
    (ltTrans : ∀ a b c, lt a b = true → lt b c = true → lt a c = true)
    (l m : List α) (h : lexLt lt l m = true) : lexLt lt m l = false := by
  by_contra hc
  have h2 : lexLt lt m l = true := by
    cases hx : lexLt lt m l with
    | false => exact absurd hx hc
    | true => rfl
  have := lexLt_trans lt ltTrans l m l h h2
  rw [lexLt_irrefl lt ltIrrefl] at this
  exact Bool.false_ne_true this

end LexOrder

/-- Element order on `Char` (codepoint order, = Go's byte order under
UTF-8). -/
def charLt (a b : Char) : Bool := decide (a < b)

theorem charLt_irrefl (a : Char) : charLt a a = false := by
  simp [charLt]

theorem charLt_trans (a b c : Char) :
    charLt a b = true → charLt b c = true → charLt a c = true := by
  simp only [charLt, decide_eq_true_eq]
  exact lt_trans

theorem charLt_connex (a b : Char) (h : a ≠ b) :
    charLt a b = true ∨ charLt b a = true := by
  simp only [charLt, decide_eq_true_eq]
  rcases lt_trichotomy a b with h1 | h1 | h1
  · exact Or.inl h1
  · exact absurd h1 h
  · exact Or.inr h1

/-! ### Sorting

Go's `sort.Sort` produces a permutation of its input that is
non-decreasing for the comparator; it is modelled by an insertion sort
(kernel-executable; for the distinct keys sorted here the result is the
unique sorted permutation, so the choice of algorithm is immaterial). -/

def insertSorted {α : Type} (le : α → α → Bool) (a : α) : List α → List α
  | [] => [a]
  | b :: l => if le a b then a :: b :: l else b :: insertSorted le a l

def sortBy {α : Type} (le : α → α → Bool) : List α → List α
  | [] => []
  | a :: l => insertSorted le a (sortBy le l)

theorem insertSorted_perm {α : Type} (le : α → α → Bool) (a : α)
    (l : List α) : (insertSorted le a l).Perm (a :: l) := by
  induction l with
  | nil => exact List.Perm.refl _
  | cons b l ih =>
    simp only [insertSorted]
    by_cases h : le a b = true
    · rw [if_pos h]
    · rw [if_neg h]
      exact (ih.cons b).trans (List.Perm.swap a b l)

theorem sortBy_perm {α : Type} (le : α → α → Bool) (l : List α) :
    (sortBy le l).Perm l := by
  induction l with
  | nil => exact List.Perm.refl _
  | cons a l ih => exact (insertSorted_perm le a (sortBy le l)).trans (ih.cons a)

theorem insertSorted_pairwise {α : Type} (le : α → α → Bool)
    (total : ∀ a b, (le a b || le b a) = true)
    (htrans : ∀ a b c, le a b = true → le b c = true → le a c = true)
    (a : α) (l : List α) (h : l.Pairwise (fun x y => le x y = true)) :
    (insertSorted le a l).Pairwise (fun x y => le x y = true) := by
  induction l with
  | nil => simp [insertSorted]
  | cons b l ih =>
    rw [List.pairwise_cons] at h
    obtain ⟨hb, hl⟩ := h
    simp only [insertSorted]
    by_cases hab : le a b = true
    · rw [if_pos hab, List.pairwise_cons]
      refine ⟨?_, List.pairwise_cons.mpr ⟨hb, hl⟩⟩
      intro y hy
      rcases List.mem_cons.mp hy with rfl | hy
      · exact hab
      · exact htrans a b y hab (hb y hy)
    · have hba : le b a = true := by
        have ht := total a b
        rw [Bool.or_eq_true] at ht
        rcases ht with ht | ht
        · exact absurd ht hab
        · exact ht
      rw [if_neg hab, List.pairwise_cons]
      refine ⟨?_, ih hl⟩
      intro y hy
      rcases List.mem_cons.mp ((insertSorted_perm le a l).mem_iff.mp hy) with
        rfl | hy2
      · exact hba
      · exact hb y hy2

theorem sortBy_pairwise {α : Type} (le : α → α → Bool)
    (total : ∀ a b, (le a b || le b a) = true)
    (htrans : ∀ a b c, le a b = true → le b c = true → le a c = true)
    (l : List α) :
    (sortBy le l).Pairwise (fun x y => le x y = true) := by
  induction l with
  | nil => simp [sortBy]
  | cons a l ih =>
    exact insertSorted_pairwise le total htrans a (sortBy le l) ih

/-- Go string comparison `a < b` (byte-wise, = codepoint lexicographic). -/
def strLt (a b : String) : Bool := lexLt charLt a.data b.data

theorem strLt_connex (a b : String) (h : a ≠ b) :
    strLt a b = true ∨ strLt b a = true :=
  lexLt_connex charLt charLt_connex a.data b.data
    (fun hd => h (String.ext hd))

theorem strLt_trans (a b c : String) :
    strLt a b = true → strLt b c = true → strLt a c = true :=
  lexLt_trans charLt charLt_trans a.data b.data c.data

/-- `graph.Def`, fields per spec §3 (`DefKey` fields inlined). -/
structure Def where
  Repo : String
  CommitID : String
  UnitType : String
  Unit : String
  Path : String
  Name : String
  Kind : String
  File : String
  DefStart : Nat
  DefEnd : Nat
  Exported : Bool
  Local : Bool
  deriving DecidableEq, Repr, Inhabited

/-- `graph.Ref`, fields per spec §3. -/
structure Ref where
  DefRepo : String
  DefUnitType : String
  DefUnit : String
  DefPath : String
  Repo : String
  CommitID : String
  UnitType : String
  Unit : String
  File : String
  Start : Nat
  End : Nat
  Def : Bool
  deriving DecidableEq, Repr, Inhabited

/-- `graph.Output` (the parts the unit store writes). -/
structure Output where
  Defs : List Def
  Refs : List Ref
  deriving Repr

/-- `byteOffsets` (fs_store.go): absolute offsets into a data file. -/
abbrev byteOffsets := List Int

/-- `byteRanges` (fs_store.go): `[start, len_1, len_2, ...]` for one file. -/
abbrev byteRanges := List Int

/-- `fileByteRanges`: Go `map[string]byteRanges`, modelled as an
association list (lookup-extensional; entry order is irrelevant to every
claim, which only inspects lookups). -/
abbrev fileByteRanges := List (String × byteRanges)

/-- Lookup in a `fileByteRanges` map (Go `brs, present := fbrs[f]`). -/
def fbrFind (fbrs : fileByteRanges) (file : String) : Option byteRanges :=
  (fbrs.find? (fun e => e.1 == file)).map (·.2)

/-- Go `fbrs[f] = append(fbrs[f], v)`: append `v` to the entry for `f`,
creating the entry if absent. -/
def fbrAppend (fbrs : fileByteRanges) (file : String) (v : Int) : fileByteRanges :=
  match fbrs with
  | [] => [(file, [v])]
  | e :: rest =>
    if e.1 == file then (e.1, e.2 ++ [v]) :: rest
    else e :: fbrAppend rest file v

/-- Go `fbr[f] = brs` (map set, overwriting any existing entry). -/
def fbrSet (fbrs : fileByteRanges) (file : String) (brs : byteRanges) : fileByteRanges :=
  match fbrs with
  | [] => [(file, brs)]
  | e :: rest =>
    if e.1 == file then (file, brs) :: rest
    else e :: fbrSet rest file brs

/-! ## writeDefs / readDefs (fs_store.go lines 689-719, 447-478) -/

/-- Offsets recorded by `fsUnitStore.writeDefs`: `ofs[i] = o` is the byte
offset at which record `i` starts; `o` advances by the codec's reported
encoded length of each record. -/
def writeDefsOfs (encLen : Def → Nat) : Nat → List Def → byteOffsets
  | _, [] => []
  | o, d :: ds => (o : Int) :: writeDefsOfs encLen (o + encLen d) ds

/-- `fsUnitStore.writeDefs`: streams `defs` through the codec in the
caller-provided input order; returns the file contents (the framed record
sequence) and the recorded starting offsets. -/
def writeDefs (encLen : Def → Nat) (defs : List Def) : List Def × byteOffsets :=
  (defs, writeDefsOfs encLen 0 defs)

/-- `fsUnitStore.readDefs`: decodes the whole def file, accumulating the
byte offset (`n += o` after appending the pre-decode offset). -/
def readDefsLoop (encLen : Def → Nat) : Nat → List Def → List Def × byteOffsets
  | _, [] => ([], [])
  | n, d :: ds =>
    let rest := readDefsLoop encLen (n + encLen d) ds
    (d :: rest.1, (n : Int) :: rest.2)

/-- `fsUnitStore.readDefs` on a def file (modelled as its record list). -/
def readDefs (encLen : Def → Nat) (file : List Def) : List Def × byteOffsets :=
  readDefsLoop encLen 0 file

/-! ## writeRefs / readRefs (fs_store.go lines 722-779, 622-673) -/

/-- `refsByFileStartEnd.Less` is declared elsewhere in the repository;
per spec §4.2 refs are sorted by `(File, Start, End)`. This is the
corresponding total `≤` used by the model's sort. -/
def refLe (a b : Ref) : Bool :=
  strLt a.File b.File ||
    (a.File == b.File &&
      (a.Start < b.Start || (a.Start == b.Start && a.End ≤ b.End)))

/-- The loop body state of `fsUnitStore.writeRefs` after sorting:
`o` (bytes written), `lastFile`, `lastFileByteRanges`, accumulated `fbr`
and `ofs`. Returns `(fbr, ofs, o, lastFile, lastFileByteRanges)`. -/
def writeRefsLoop (encLen : Ref → Nat) :
    Nat → String → byteRanges → fileByteRanges →
    List Ref → fileByteRanges × byteOffsets × Nat × String × byteRanges
  | o, lastFile, lastFBR, fbr, [] => (fbr, [], o, lastFile, lastFBR)
  | o, lastFile, lastFBR, fbr, ref :: rest =>
    -- ofs[i] = o
    let st :=
      if lastFile != ref.File then
        let fbr := if lastFile != "" then fbrSet fbr lastFile lastFBR else fbr
        (ref.File, ([(o : Int)] : byteRanges), fbr)
      else (lastFile, lastFBR, fbr)
    let n := encLen ref
    let lastFBR := st.2.1 ++ [(n : Int)]  -- append o_after - before = n
    let res := writeRefsLoop encLen (o + n) st.1 lastFBR st.2.2 rest
    (res.1, (o : Int) :: res.2.1, res.2.2)

/-- `fsUnitStore.writeRefs`: sorts by `(File, Start, End)`, streams the
refs, and returns `(file contents, fbr, ofs)`. -/
def writeRefs (encLen : Ref → Nat) (refs : List Ref) :
    List Ref × fileByteRanges × byteOffsets :=
  let sorted := sortBy refLe refs
  let res := writeRefsLoop encLen 0 "" [] [] sorted
  let fbr := if res.2.2.2.1 != "" then fbrSet res.1 res.2.2.2.1 res.2.2.2.2 else res.1
  (sorted, fbr, res.2.1)

/-- The loop of `fsUnitStore.readRefs` (lines 639-662): for each decoded
ref, record `ofs`, compute `lastFileRefStartOffset` as the **last element
of the current ref's file's byte-range list** (0 when absent), close out
the previous file's range list on a file change, and append
`o - lastFileRefStartOffset` to the current file's list.
Returns `(refs, fbrs, ofs, o, lastFile)`. -/
def readRefsLoop (encLen : Ref → Nat) :
    Nat → fileByteRanges → String → List Ref →
    List Ref × fileByteRanges × byteOffsets × Nat × String
  | o, fbrs, lastFile, [] => ([], fbrs, [], o, lastFile)
  | o, fbrs, lastFile, ref :: rest =>
    let lastFileRefStartOffset : Int :=
      match fbrFind fbrs ref.File with
      | some brs => brs.getLastD 0
      | none => 0
    let fbrs :=
      if lastFile != "" && ref.File != lastFile then
        fbrAppend fbrs lastFile ((o : Int) - lastFileRefStartOffset)
      else fbrs
    let fbrs := fbrAppend fbrs ref.File ((o : Int) - lastFileRefStartOffset)
    let res := readRefsLoop encLen (o + encLen ref) fbrs ref.File rest
    (ref :: res.1, res.2.1, (o : Int) :: res.2.2.1, res.2.2.2)

/-- `fsUnitStore.readRefs` on a ref file: the loop above followed by the
final close-out (lines 663-669). -/
def readRefs (encLen : Ref → Nat) (file : List Ref) :
    List Ref × fileByteRanges × byteOffsets :=
  let res := readRefsLoop encLen 0 [] "" file
  let fbrs := res.2.1
  let o := res.2.2.2.1
  let lastFile := res.2.2.2.2
  let fbrs :=
    if lastFile != "" then
      let lastFileRefStartOffset : Int :=
        match fbrFind fbrs lastFile with
        | some brs => brs.getLastD 0
        | none => 0
      fbrAppend fbrs lastFile ((o : Int) - lastFileRefStartOffset)
    else fbrs
  (res.1, fbrs, res.2.2.1)

/-! ## Import cleaning and the unit store surface -/

/-- Modelled from the spec: `cleanForImport` belongs to this repository but is
not under `src/` (only its callers are). Spec §4.1: for each def, clear `Repo`,
`CommitID`, `UnitType`, `Unit`. -/
def cleanDef (d : Def) : Def :=
  { d with Repo := "", CommitID := "", UnitType := "", Unit := "" }

/-- Modelled from the spec: ref half of `cleanForImport` (§4.1): clear `Repo`
and `CommitID`; clear `DefRepo`/`DefUnitType`/`DefUnit` when they equal the
enclosing repo/unit (relative encoding); set `UnitType`/`Unit` to empty. -/
def cleanRef (repo unitType unitName : String) (r : Ref) : Ref :=
  { r with
    Repo := "", CommitID := "",
    DefRepo := if r.DefRepo == repo then "" else r.DefRepo,
    DefUnitType := if r.DefUnitType == unitType then "" else r.DefUnitType,
    DefUnit := if r.DefUnit == unitName then "" else r.DefUnit,
    UnitType := "", Unit := "" }

/-- Modelled from the spec: `cleanForImport(&data, repo, unitType, unit)`
(§4.1); records whose key fields are empty are dropped (def key: `Path`;
ref key: `(File, Start, End)`, of which only `File` can be empty). -/
def cleanForImport (data : Output) (repo unitType unitName : String) : Output :=
  { Defs := (data.Defs.filter (fun d => d.Path != "")).map cleanDef,
    Refs := (data.Refs.filter (fun r => r.File != "")).map
      (cleanRef repo unitType unitName) }

/-- The two data files of one `fsUnitStore` (`none` = file not created). -/
structure UnitStoreFiles where
  defDat : Option (List Def)
  refDat : Option (List Ref)

inductive StoreErr
  | notExist
  deriving DecidableEq, Repr

/-- `fsUnitStore.Import` (lines 675-684): clean, `writeDefs`, `writeRefs`. -/
def fsImport (encD : Def → Nat) (encR : Ref → Nat) (data : Output) :
    UnitStoreFiles :=
  let data := cleanForImport data "" "" ""
  { defDat := some (writeDefs encD data.Defs).1,
    refDat := some (writeRefs encR data.Refs).1 }

/-- `fsUnitStore.Defs` (lines 378-405): sequential decode of `def.dat`,
keeping the records selected by every filter. -/
def fsDefs (s : UnitStoreFiles) (filters : List (Def → Bool)) :
    Except StoreErr (List Def) :=
  match s.defDat with
  | none => .error .notExist
  | some ds => .ok (ds.filter fun d => filters.all (· d))

/-- `fsUnitStore.Refs` (lines 480-507): sequential decode of `ref.dat`. -/
def fsRefs (s : UnitStoreFiles) (filters : List (Ref → Bool)) :
    Except StoreErr (List Ref) :=
  match s.refDat with
  | none => .error .notExist
  | some rs => .ok (rs.filter fun r => filters.all (· r))

/-! ## Order lemmas for the ref sort -/

theorem refLe_total (a b : Ref) : (refLe a b || refLe b a) = true := by
  simp only [refLe, Bool.or_eq_true, decide_eq_true_eq, beq_iff_eq,
    Bool.and_eq_true]
  by_cases hf : a.File = b.File
  · rcases lt_trichotomy a.Start b.Start with h2 | h2 | h2
    · exact Or.inl (Or.inr ⟨hf, Or.inl h2⟩)
    · rcases Nat.le_total a.End b.End with h3 | h3
      · exact Or.inl (Or.inr ⟨hf, Or.inr ⟨h2, h3⟩⟩)
      · exact Or.inr (Or.inr ⟨hf.symm, Or.inr ⟨h2.symm, h3⟩⟩)
    · exact Or.inr (Or.inr ⟨hf.symm, Or.inl h2⟩)
  · rcases strLt_connex a.File b.File hf with h | h
    · exact Or.inl (Or.inl h)
    · exact Or.inr (Or.inl h)

theorem refLe_trans (a b c : Ref) :
    refLe a b = true → refLe b c = true → refLe a c = true := by
  intro hab hbc
  simp only [refLe, Bool.or_eq_true, decide_eq_true_eq, beq_iff_eq,
    Bool.and_eq_true] at hab hbc ⊢
  obtain h | ⟨hf, h⟩ := hab <;> obtain h2 | ⟨hf2, h2⟩ := hbc
  · exact Or.inl (strLt_trans _ _ _ h h2)
  · exact Or.inl (hf2 ▸ h)
  · exact Or.inl (hf ▸ h2)
  · refine Or.inr ⟨hf.trans hf2, ?_⟩
    rcases h with h | ⟨hs, h⟩ <;> rcases h2 with h2 | ⟨hs2, h2⟩
    · exact Or.inl (lt_trans h h2)
    · exact Or.inl (hs2 ▸ h)
    · exact Or.inl (hs ▸ h2)
    · exact Or.inr ⟨hs.trans hs2, Nat.le_trans h h2⟩

/-! ## C1: import round-trip -/

/-- **C1.** After `fsUnitStore.Import(G)`, `Defs` with no filters returns
`clean(G.Defs)` in the caller-provided input order, and `Refs` with no
filters returns `clean(G.Refs)` sorted by `(File asc, Start asc, End asc)`
(stated as: the result is a permutation of the cleaned refs and is
pairwise `refLe`-sorted). -/
theorem import_roundtrip (encD : Def → Nat) (encR : Ref → Nat) (G : Output) :
    fsDefs (fsImport encD encR G) [] =
      Except.ok (cleanForImport G "" "" "").Defs ∧
    ∃ refs, fsRefs (fsImport encD encR G) [] = Except.ok refs ∧
      refs.Perm (cleanForImport G "" "" "").Refs ∧
      List.Pairwise (fun a b => refLe a b = true) refs := by
  refine ⟨?_, sortBy refLe (cleanForImport G "" "" "").Refs, ?_, ?_, ?_⟩
  · simp [fsDefs, fsImport, writeDefs, List.filter_true]
  · simp [fsRefs, fsImport, writeRefs, List.filter_true]
  · exact sortBy_perm refLe _
  · exact sortBy_pairwise refLe refLe_total refLe_trans _

/-! ## C4: def offset consistency -/

theorem readDefsLoop_eq (encLen : Def → Nat) (file : List Def) : ∀ n,
    readDefsLoop encLen n file = (file, writeDefsOfs encLen n file) := by
  induction file with
  | nil => intro n; rfl
  | cons d ds ih => intro n; simp [readDefsLoop, writeDefsOfs, ih]

theorem writeDefsOfs_length (encLen : Def → Nat) (defs : List Def) : ∀ o,
    (writeDefsOfs encLen o defs).length = defs.length := by
  induction defs with
  | nil => intro o; rfl
  | cons d ds ih => intro o; simp [writeDefsOfs, ih]

theorem writeDefsOfs_getD (encLen : Def → Nat) (defs : List Def) : ∀ o i,
    i < defs.length →
    (writeDefsOfs encLen o defs).getD i 0
      = (o : Int) + ((((defs.take i).map encLen).sum : Nat) : Int) := by
  induction defs with
  | nil => intro o i h; simp at h
  | cons d ds ih =>
    intro o i h
    match i with
    | 0 => simp [writeDefsOfs]
    | i + 1 =>
      have h2 : i < ds.length := by simpa using h
      simp only [writeDefsOfs, List.getD_cons_succ, List.take_succ_cons,
        List.map_cons, List.sum_cons, ih (o + encLen d) i h2]
      push_cast
      ring

/-- **C4.** `readDefs` on any def file returns `(defs, ofs)` with
`len(ofs) = len(defs)`, `ofs[0] = 0`, and
`ofs[i+1] - ofs[i] = encLen(defs[i])`; `writeDefs` writes the defs in the
caller-provided input order and returns `ofs` with `ofs[i]` the starting
byte offset of record `i` (the sum of the encoded lengths of the records
before it). -/
theorem defs_offset_consistency (encLen : Def → Nat) (file defsIn : List Def)
    (i : Nat) :
    (readDefs encLen file).1 = file ∧
    (readDefs encLen file).2.length = (readDefs encLen file).1.length ∧
    (readDefs encLen file).2.getD 0 0 = 0 ∧
    (i + 1 < file.length →
      (readDefs encLen file).2.getD (i + 1) 0 -
        (readDefs encLen file).2.getD i 0
        = encLen (file.getD i default)) ∧
    (writeDefs encLen defsIn).1 = defsIn ∧
    (i < defsIn.length →
      (writeDefs encLen defsIn).2.getD i 0
        = ((((defsIn.take i).map encLen).sum : Nat) : Int)) := by
  have hloop := readDefsLoop_eq encLen file 0
  refine ⟨by simp [readDefs, hloop], ?_, ?_, ?_, rfl, ?_⟩
  · simp [readDefs, hloop, writeDefsOfs_length]
  · cases file with
    | nil => rfl
    | cons d ds => simp [readDefs, readDefsLoop, hloop, writeDefsOfs]
  · intro h
    have h1 : i < file.length := Nat.lt_of_succ_lt h
    simp only [readDefs, hloop]
    rw [writeDefsOfs_getD encLen file 0 (i + 1) h,
      writeDefsOfs_getD encLen file 0 i h1]
    have hgd : file.getD i default = file[i] := by
      simp [List.getD, List.getElem?_eq_getElem h1]
    rw [hgd, List.take_succ, List.getElem?_eq_getElem h1]
    simp only [Option.toList_some, List.map_append, List.sum_append,
      List.map_cons, List.map_nil, List.sum_cons, List.sum_nil]
    push_cast
    ring
  · intro h
    simp only [writeDefs, writeDefsOfs_getD encLen defsIn 0 i h]
    push_cast
    ring

/-- Concrete data for the C4 witness and the C2 counterexample: the codec's
encoded length is carried in the `Start`/`DefStart` field of each record. -/
def demoDefLen : Def → Nat := fun d => d.DefStart

def demoDef (p : String) (len : Nat) : Def :=
  { Repo := "", CommitID := "", UnitType := "", Unit := "", Path := p,
    Name := p, Kind := "", File := "f", DefStart := len, DefEnd := len + 1,
    Exported := false, Local := false }

def demoDefs : List Def := [demoDef "p1" 3, demoDef "p2" 5]

theorem defs_offset_consistency_witness :
    (0 + 1 < demoDefs.length ∧ 0 < demoDefs.length) ∧
    (readDefs demoDefLen demoDefs).2.getD 1 0 -
        (readDefs demoDefLen demoDefs).2.getD 0 0
      = demoDefLen (demoDefs.getD 0 default) ∧
    (writeDefs demoDefLen demoDefs).2.getD 0 0
      = ((((demoDefs.take 0).map demoDefLen).sum : Nat) : Int) :=
  ⟨⟨by decide, by decide⟩,
    (defs_offset_consistency demoDefLen demoDefs demoDefs 0).2.2.2.1
      (by decide),
    (defs_offset_consistency demoDefLen demoDefs demoDefs 0).2.2.2.2.2
      (by decide)⟩

/-! ## C2: readRefs does not reproduce the written fileByteRanges -/

def demoRef (f : String) (len : Nat) : Ref :=
  { DefRepo := "", DefUnitType := "", DefUnit := "", DefPath := "p",
    Repo := "", CommitID := "", UnitType := "", Unit := "",
    File := f, Start := len, End := len + 1, Def := false }

def demoRefLen : Ref → Nat := fun r => r.Start

/-- Three refs, already in `(File, Start, End)` order: two in file `"A"`
with encoded lengths 3 and 5, then one in file `"B"` with length 7. -/
def demoRefs : List Ref := [demoRef "A" 3, demoRef "A" 5, demoRef "B" 7]

/-! ## Tree-level def-query index (`defQueryTreeIndex`, unnamed part_000)

The MAFSA library (`github.com/smartystreets/mafsa`) is an external
collaborator; a `MinTree` is modelled by its language: the sorted list of
terms it accepts (the automaton is minimal and deterministic, so the
language determines it). `t = none` models a nil `*MinTree` pointer. -/

/-- `unit.ID2` — `(Type, Name)` of a source unit. The Go field `Type` is
renamed `Typ` (Lean keyword). -/
structure ID2 where
  Typ : String
  Name : String
  deriving DecidableEq, Repr, Inhabited

/-- `unitID2s.Less` (part_000 lines 218-220). -/
def unitID2Less (a b : ID2) : Bool :=
  strLt a.Name b.Name || (a.Name == b.Name && strLt a.Typ b.Typ)

/-- `sort.Sort(unitID2s(units))` orders by `Less`; `le = !Less(b, a)`. -/
def unitID2Le (a b : ID2) : Bool := !unitID2Less b a

/-- `unitOffsets` — `(unit_number: uint8, ofs: byte-offsets)`. -/
structure unitOffsets where
  Unit : Nat
  byteOffsets : byteOffsets
  deriving DecidableEq, Repr, Inhabited

/-- Modelled from the spec: `deltaEncode` is part of this repository but
not under `src/`. Spec §3/§9: each value after the first is
`v[i] - v[i-1]`. -/
def deltaEncodeGo (prev : Int) : List Int → List Int
  | [] => []
  | v :: vs => (v - prev) :: deltaEncodeGo v vs

def deltaEncode (l : List Int) : List Int :=
  match l with
  | [] => []
  | v :: vs => v :: deltaEncodeGo v vs

/-- Modelled from the spec: `deltaDecode` (inverse prefix-sum). -/
def deltaDecodeGo (prev : Int) : List Int → List Int
  | [] => []
  | d :: ds => (prev + d) :: deltaDecodeGo (prev + d) ds

def deltaDecode (l : List Int) : List Int :=
  match l with
  | [] => []
  | v :: vs => v :: deltaDecodeGo v vs

/-- The per-unit `mafsaTable`: decoded MinTree (by language) plus the
byte-offset postings `Values[i]` for the `i`-th term in lexicographic
order (the order MAFSA traversal visits final states). -/
structure mafsaTable where
  t : Option (List (List Char))
  Values : List byteOffsets
  deriving DecidableEq, Repr, Inhabited

/-- The per-unit `defQueryIndex` (only its `mt` field is used by the
tree-level `Build`). -/
structure defQueryIndex where
  mt : mafsaTable
  deriving DecidableEq, Repr, Inhabited

/-- `mafsaUnitTable` (part_000 lines 230-235). `B` (the marshalled bytes
of the MinTree) is modelled by the term list it encodes. -/
structure mafsaUnitTable where
  t : Option (List (List Char))
  B : List (List Char)
  Units : List ID2
  Values : List (List unitOffsets)
  deriving DecidableEq, Repr, Inhabited

/-- `defQueryTreeIndex` (part_000 lines 18-21). -/
structure defQueryTreeIndex where
  mt : Option mafsaUnitTable
  ready : Bool
  deriving DecidableEq, Repr, Inhabited

/-- A Go function outcome that may instead be a runtime panic. -/
inductive PanicOr (α : Type) where
  | panic (msg : String)
  | ret (a : α)
  deriving DecidableEq, Repr

/-- `mafsa.MinTreeNode`, restricted to the fields `getByQuery` reads. -/
structure MinTreeNode where
  Number : Nat
  Final : Bool
  deriving DecidableEq, Repr

/-- Modelled from the spec: `MinTree.IndexedTraverse` of the external
smartystreets/mafsa library, described in spec §4.4: the walk returns the
node reached by `q` (`none` when no term extends `q`) together with the
ordinal of the first term strictly under the node; a final node's own
term immediately precedes the terms strictly under it, and `Number`
counts the terms strictly under the node. -/
def indexedTraverse (terms : List (List Char)) (q : List Char) :
    Option (MinTreeNode × Nat) :=
  if terms.any (fun t => q.isPrefixOf t) then
    some ({ Number := terms.countP (fun t => q.isPrefixOf t && !(t == q)),
            Final := terms.contains q },
          terms.countP (fun t => lexLt charLt t q) +
            (if terms.contains q then 1 else 0))
  else none

/-- Go `uofMap[u] = append(uofMap[u], ...)` on `map[unit.ID2]byteOffsets`,
modelled as an association list with append-or-create semantics. -/
def uofMapAppend (m : List (ID2 × byteOffsets)) (u : ID2)
    (ofs : byteOffsets) : List (ID2 × byteOffsets) :=
  match m with
  | [] => [(u, ofs)]
  | e :: rest =>
    if e.1 == u then (e.1, e.2 ++ ofs) :: rest
    else e :: uofMapAppend rest u ofs

/-- The posting-union loop of `getByQuery` (part_000 lines 54-62): fold
the postings into the `unit.ID2 → byteOffsets` map, translating each
`uofs.Unit` number through `mt.Units` and delta-decoding its offsets. -/
def queryUnion (mt : mafsaUnitTable) (postings : List (List unitOffsets)) :
    List (ID2 × byteOffsets) :=
  postings.foldl
    (fun m unitsOffsets => unitsOffsets.foldl
      (fun m uofs =>
        uofMapAppend m (mt.Units.getD uofs.Unit default)
          (deltaDecode uofs.byteOffsets)) m)
    []

/-- `defQueryTreeIndex.getByQuery` (part_000 lines 36-65). The `found`
boolean is modelled by `Option`: `ret none` is `(nil, false)`. Go's
`x.mt.Units[uofs.Unit]` panics when out of bounds; the model totalizes it
with `getD` (every theorem below applies it within bounds). -/
def getByQuery (x : defQueryTreeIndex) (q : List Char) :
    PanicOr (Option (List (ID2 × byteOffsets))) :=
  match x.mt with
  | none => .panic "mafsaTable not built/read"
  | some mt =>
    match mt.t with
    | none => .panic "runtime error: invalid memory address or nil pointer dereference"
    | some terms =>
      let ql := q.map Char.toLower
      match indexedTraverse terms ql with
      | none => .ret none
      | some (node, i0) =>
        let i := if node.Final then i0 - 1 else i0
        let nn := if node.Final then node.Number + 1 else node.Number
        .ret (some (queryUnion mt ((mt.Values.drop i).take nn)))

/-- `unitNums[u]` where `unitNums` maps the kept (sorted, truncated)
units to `0, 1, 2, …`. A map miss yields Go's `uint8` zero value `0` —
there is no presence check in the source. -/
def unitNumsGet (units : List ID2) (u : ID2) : Nat :=
  match units.indexOf? u with
  | some i => i
  | none => 0

/-- Go `termToUOffs[term] = append(termToUOffs[term], uoffs)`. -/
def tuAppend (m : List (List Char × List unitOffsets)) (term : List Char)
    (uoffs : unitOffsets) : List (List Char × List unitOffsets) :=
  match m with
  | [] => [(term, [uoffs])]
  | e :: rest =>
    if e.1 == term then (e.1, e.2 ++ [uoffs]) :: rest
    else e :: tuAppend rest term uoffs

/-- `termToUOffs[term]` lookup (present for every collected term). -/
def tuFind (m : List (List Char × List unitOffsets)) (term : List Char) :
    List unitOffsets :=
  ((m.find? (fun e => e.1 == term)).map (·.2)).getD []

/-- The unit-index traversal of `Build` (part_000 lines 121-140): for
each unit whose MinTree is non-nil, visit its final states in
lexicographic order (i.e. its term list in order, paired positionally
with its `Values`) and append `(unitNums[u], deltaEncode(offsets))` to
`termToUOffs[term]`. The Go `range` over the map is modelled by the
association-list order (the map-iteration order only permutes the
posting lists). -/
def buildCollect (unitNums : ID2 → Nat) (xs : List (ID2 × defQueryIndex)) :
    List (List Char × List unitOffsets) :=
  xs.foldl
    (fun m p =>
      match p.2.mt.t with
      | none => m
      | some terms =>
        (terms.zip p.2.mt.Values).foldl
          (fun m tv =>
            tuAppend m tv.1
              { Unit := unitNums p.1, byteOffsets := deltaEncode tv.2 }) m)
    []

/-- Ascending string sort order used by `sort.Strings(terms)`. -/
def strDataLe (a b : List Char) : Bool := !lexLt charLt b a

/-- `defQueryTreeIndex.Build` (part_000 lines 93-180), on the map
`xs : unit.ID2 → *defQueryIndex` (as an association list with distinct
keys). Sorts the units by `(Name, Type)`, truncates to 255, numbers the
kept units, collects `termToUOffs` over **all** of `xs`, sorts the
terms, and assembles the `mafsaUnitTable`. -/
def defQueryTreeIndexBuild (xs : List (ID2 × defQueryIndex)) :
    defQueryTreeIndex :=
  let units := sortBy unitID2Le (xs.map Prod.fst)
  let maxUnits := 255
  let units := if units.length > maxUnits then units.take maxUnits else units
  let termToUOffs := buildCollect (unitNumsGet units) xs
  let terms := sortBy strDataLe (termToUOffs.map Prod.fst)
  if terms.isEmpty then
    { mt := some { t := none, B := [], Units := [], Values := [] },
      ready := true }
  else
    { mt := some
        { t := some terms, B := terms, Units := units,
          Values := terms.map (fun term => tuFind termToUOffs term) },
      ready := true }

/-- `defQueryTreeIndex.Write` (part_000 lines 183-193): panics without a
table; otherwise emits the binary-marshalled table (modelled as the table
itself, the codec being faithful). -/
def indexWrite (x : defQueryTreeIndex) : PanicOr mafsaUnitTable :=
  match x.mt with
  | none => .panic "no mafsaTable to write"
  | some mt => .ret mt

/-! ## Characterization of getByQuery on well-formed tables (C5, C6) -/

theorem countP_split {α : Type} (p r : α → Bool) (l : List α) :
    l.countP p = l.countP (fun a => p a && r a)
      + l.countP (fun a => p a && !r a) := by
  induction l with
  | nil => rfl
  | cons a l ih =>
    simp only [List.countP_cons, ih]
    cases hp : p a <;> cases hr : r a <;> simp <;> omega

theorem sorted_terms_nodup (terms : List (List Char))
    (hs : List.Pairwise (fun a b => lexLt charLt a b = true) terms) :
    terms.Nodup :=
  hs.imp (fun {a b} h hab => by
    subst hab
    rw [lexLt_irrefl charLt charLt_irrefl] at h
    exact Bool.noConfusion h)

/-- In a strictly sorted term list, the terms extended by `q` occupy a
contiguous index range: it starts right after the terms strictly below
`q`, and positionally paired values slice accordingly. -/
theorem sorted_filter_isPrefixOf_eq_slice {β : Type} (q : List Char) :
    ∀ (terms : List (List Char)) (vals : List β),
      terms.length = vals.length →
      List.Pairwise (fun a b => lexLt charLt a b = true) terms →
      ((terms.zip vals).filter (fun p => q.isPrefixOf p.1)).map Prod.snd
        = (vals.drop (terms.countP (fun t => lexLt charLt t q))).take
            (terms.countP (fun t => q.isPrefixOf t)) := by
  intro terms
  induction terms with
  | nil => intro vals _ _; simp
  | cons t ts ih =>
    intro vals hlen hs
    cases vals with
    | nil => simp at hlen
    | cons v vs =>
      have hlen2 : ts.length = vs.length := by simpa using hlen
      rw [List.pairwise_cons] at hs
      obtain ⟨hts, hps⟩ := hs
      by_cases hpre : q.isPrefixOf t = true
      · have hltq : lexLt charLt t q = false :=
          isPrefixOf_not_lexLt charLt charLt_irrefl q t hpre
        have hts0 : ∀ u ∈ ts, lexLt charLt u q = false := by
          intro u hu
          cases h2 : lexLt charLt u q with
          | false => rfl
          | true =>
            have h3 := lexLt_trans charLt charLt_trans t u q (hts u hu) h2
            rw [hltq] at h3
            exact Bool.noConfusion h3
        have hcount0 : ts.countP (fun u => lexLt charLt u q) = 0 :=
          List.countP_eq_zero.mpr (fun u hu => by simp [hts0 u hu])
        simp only [List.zip_cons_cons, List.filter_cons, hpre,
          List.countP_cons, hltq, hcount0, if_pos, if_neg, List.map_cons]
        rw [ih vs hlen2 hps, hcount0]
        simp [hpre, List.take_succ_cons]
      · have hpreF : q.isPrefixOf t = false := by
          cases h2 : q.isPrefixOf t with
          | false => rfl
          | true => exact absurd h2 hpre
        by_cases hlt : lexLt charLt t q = true
        · simp only [List.zip_cons_cons, List.filter_cons, hpreF, hlt,
            List.countP_cons]
          simpa using ih vs hlen2 hps
        · have hltq : lexLt charLt t q = false := by
            cases h2 : lexLt charLt t q with
            | false => rfl
            | true => exact absurd h2 hlt
          have hts0 : ∀ u ∈ ts, q.isPrefixOf u = false ∧
              lexLt charLt u q = false := by
            intro u hu
            constructor
            · cases h2 : q.isPrefixOf u with
              | false => rfl
              | true =>
                obtain ⟨e, rfl⟩ := List.isPrefixOf_iff_prefix.mp h2
                have h3 := lexLt_append_of_not_isPrefixOf charLt
                  charLt_connex q t e hltq (by
                    cases h4 : q.isPrefixOf t with
                    | false => rfl
                    | true => exact absurd h4 hpre)
                have h5 := lexLt_asymm charLt charLt_irrefl charLt_trans
                  (q ++ e) t h3
                rw [hts (q ++ e) hu] at h5
                exact Bool.noConfusion h5
            · cases h2 : lexLt charLt u q with
              | false => rfl
              | true =>
                have h3 := lexLt_trans charLt charLt_trans t u q
                  (hts u hu) h2
                rw [hltq] at h3
                exact Bool.noConfusion h3
          have hkz : (t :: ts).countP (fun u => q.isPrefixOf u) = 0 :=
            List.countP_eq_zero.mpr (fun u hu => by
              rcases List.mem_cons.mp hu with rfl | hu
              · simp [hpre]
              · simp [(hts0 u hu).1])
          have hfz :
              ((t :: ts).zip (v :: vs)).filter
                  (fun p => q.isPrefixOf p.1) = [] :=
            List.filter_eq_nil_iff.mpr (fun p hp => by
              rcases List.mem_cons.mp hp with rfl | hp
              · simp [hpre]
              · have := (List.of_mem_zip hp).1
                simp [(hts0 p.1 this).1])
          rw [hkz, hfz]
          simp

theorem countP_beq_eq_one (l : List (List Char)) (a : List Char)
    (hnodup : l.Nodup) (hmem : a ∈ l) :
    l.countP (fun t => t == a) = 1 := by
  induction l with
  | nil => simp at hmem
  | cons b l ih =>
    rw [List.nodup_cons] at hnodup
    obtain ⟨hb, hl⟩ := hnodup
    rw [List.countP_cons]
    rcases List.mem_cons.mp hmem with heq | hmem2
    · have hz : l.countP (fun t => t == a) = 0 :=
        List.countP_eq_zero.mpr (fun t htl => by
          simp only [beq_iff_eq]
          intro h
          exact hb (by rw [← heq]; exact h ▸ htl))
      have hba : (b == a) = true := by simp [heq]
      rw [hz, hba]
      simp
    · have hne : b ≠ a := fun h => hb (h ▸ hmem2)
      simp [ih hl hmem2, hne]

theorem countP_pre_ne_add_one (terms : List (List Char)) (ql : List Char)
    (hnodup : terms.Nodup) (hmem : ql ∈ terms) :
    terms.countP (fun t => ql.isPrefixOf t && !(t == ql)) + 1
      = terms.countP (fun t => ql.isPrefixOf t) := by
  have hsplit := countP_split (fun t => ql.isPrefixOf t)
    (fun t => t == ql) terms
  have h1 : terms.countP (fun t => ql.isPrefixOf t && (t == ql))
      = terms.countP (fun t => t == ql) :=
    List.countP_congr (fun t _ => by
      by_cases h : t = ql
      · subst h
        simp [List.isPrefixOf_iff_prefix]
      · simp [h])
  have h2 := countP_beq_eq_one terms ql hnodup hmem
  rw [h1, h2] at hsplit
  omega

theorem countP_pre_ne_of_not_mem (terms : List (List Char)) (ql : List Char)
    (hnc : ql ∉ terms) :
    terms.countP (fun t => ql.isPrefixOf t && !(t == ql))
      = terms.countP (fun t => ql.isPrefixOf t) :=
  List.countP_congr (fun t htm => by
    have hne : t ≠ ql := fun h => hnc (h ▸ htm)
    simp [hne])

/-- What `getByQuery` computes on a well-formed table (the MAFSA decoded,
terms strictly sorted, `Values` aligned): the union of the postings of
exactly those terms that extend the lowercased query, and "not found"
exactly when no term does. -/
theorem getByQuery_eq (mt : mafsaUnitTable) (rdy : Bool)
    (terms : List (List Char)) (q : List Char) (ht : mt.t = some terms)
    (hsorted : List.Pairwise (fun a b => lexLt charLt a b = true) terms)
    (hlen : mt.Values.length = terms.length) :
    getByQuery ⟨some mt, rdy⟩ q =
      if terms.any (fun t => (q.map Char.toLower).isPrefixOf t) then
        PanicOr.ret (some (queryUnion mt
          (((terms.zip mt.Values).filter
              (fun p => (q.map Char.toLower).isPrefixOf p.1)).map Prod.snd)))
      else PanicOr.ret none := by
  have hnodup := sorted_terms_nodup terms hsorted
  by_cases hany : (terms.any
      (fun t => (q.map Char.toLower).isPrefixOf t)) = true
  · rw [if_pos hany,
      sorted_filter_isPrefixOf_eq_slice (q.map Char.toLower) terms mt.Values
        hlen.symm hsorted]
    by_cases hc : terms.contains (q.map Char.toLower) = true
    · have hmem : (q.map Char.toLower) ∈ terms := List.elem_iff.mp hc
      simp only [getByQuery, ht, indexedTraverse, hany, if_true, hc,
        eq_self_iff_true]
      rw [Nat.add_sub_cancel,
        countP_pre_ne_add_one terms (q.map Char.toLower) hnodup hmem]
    · have hnm : (q.map Char.toLower) ∉ terms := fun h =>
        hc (List.elem_iff.mpr h)
      simp only [getByQuery, ht, indexedTraverse, hany, if_true, hc,
        Bool.false_eq_true, if_false]
      rw [Nat.add_zero,
        countP_pre_ne_of_not_mem terms (q.map Char.toLower) hnm]
  · rw [if_neg hany]
    simp only [getByQuery, ht, indexedTraverse, hany]
    rfl

/-- Lookup in the query-result map (`uofMap[u]`, `[]` when absent). -/
def uofLookup (m : List (ID2 × byteOffsets)) (u : ID2) : byteOffsets :=
  ((m.find? (fun e => e.1 == u)).map Prod.snd).getD []

/-- The key set of the query-result map. -/
def uofKeys (m : List (ID2 × byteOffsets)) : List ID2 := m.map Prod.fst

theorem uofLookup_append (m : List (ID2 × byteOffsets)) (w : ID2)
    (ofs : byteOffsets) (u : ID2) :
    uofLookup (uofMapAppend m w ofs) u
      = if u = w then uofLookup m u ++ ofs else uofLookup m u := by
  induction m with
  | nil =>
    by_cases h : u = w
    · subst h
      simp [uofMapAppend, uofLookup]
    · simp [uofMapAppend, uofLookup, h, Ne.symm h]
  | cons e rest ih =>
    simp only [uofMapAppend]
    by_cases he : (e.1 == w) = true
    · have hew : e.1 = w := by simpa using he
      rw [if_pos he]
      by_cases hu : u = e.1
      · subst hu
        simp [uofLookup, hew]
      · have h2 : ¬ u = w := fun h => hu (h.trans hew.symm)
        simp [uofLookup, Ne.symm hu, h2]
    · have hew : ¬ e.1 = w := by simpa using he
      rw [if_neg he]
      by_cases hu : u = e.1
      · subst hu
        have h2 : ¬ e.1 = w := hew
        simp [uofLookup, h2]
      · have hfe : ∀ tail : List (ID2 × byteOffsets),
            uofLookup (e :: tail) u = uofLookup tail u := fun tail => by
          unfold uofLookup
          rw [List.find?_cons_of_neg tail (by simpa using Ne.symm hu)]
        simp only [hfe]
        exact ih

theorem mem_uofKeys_append (m : List (ID2 × byteOffsets)) (w : ID2)
    (ofs : byteOffsets) (u : ID2) :
    u ∈ uofKeys (uofMapAppend m w ofs) ↔ u ∈ uofKeys m ∨ u = w := by
  induction m with
  | nil => simp [uofMapAppend, uofKeys]
  | cons e rest ih =>
    simp only [uofMapAppend]
    by_cases he : (e.1 == w) = true
    · have hew : e.1 = w := by simpa using he
      rw [if_pos he]
      simp only [uofKeys, List.map_cons, List.mem_cons] at ih ⊢
      constructor
      · rintro (h | h)
        · exact Or.inl (Or.inl h)
        · exact Or.inl (Or.inr h)
      · rintro ((h | h) | h)
        · exact Or.inl h
        · exact Or.inr h
        · exact Or.inl (h.trans hew.symm)
    · rw [if_neg he]
      simp only [uofKeys, List.map_cons, List.mem_cons] at ih ⊢
      rw [ih]
      tauto

/-- The effect of the inner posting fold of `getByQuery` on one lookup. -/
theorem uofLookup_inner_foldl (mt : mafsaUnitTable) (u : ID2) :
    ∀ (l : List unitOffsets) (m : List (ID2 × byteOffsets)),
    uofLookup (l.foldl (fun m uofs =>
        uofMapAppend m (mt.Units.getD uofs.Unit default)
          (deltaDecode uofs.byteOffsets)) m) u
      = uofLookup m u ++
        ((l.filter (fun uofs =>
            mt.Units.getD uofs.Unit default == u)).map
          (fun uofs => deltaDecode uofs.byteOffsets)).flatten := by
  intro l
  induction l with
  | nil => intro m; simp
  | cons a l ih =>
    intro m
    rw [List.foldl_cons, ih, uofLookup_append]
    by_cases h : mt.Units.getD a.Unit default = u
    · rw [if_pos h.symm]
      rw [List.filter_cons, if_pos (beq_iff_eq.mpr h)]
      simp [List.append_assoc]
    · rw [if_neg (fun h2 => h h2.symm)]
      rw [List.filter_cons, if_neg (fun h2 => h (beq_iff_eq.mp h2))]

theorem mem_uofKeys_inner_foldl (mt : mafsaUnitTable) (u : ID2) :
    ∀ (l : List unitOffsets) (m : List (ID2 × byteOffsets)),
    (u ∈ uofKeys (l.foldl (fun m uofs =>
        uofMapAppend m (mt.Units.getD uofs.Unit default)
          (deltaDecode uofs.byteOffsets)) m) ↔
      u ∈ uofKeys m ∨ ∃ uofs ∈ l, mt.Units.getD uofs.Unit default = u) := by
  intro l
  induction l with
  | nil => intro m; simp
  | cons a l ih =>
    intro m
    rw [List.foldl_cons, ih, mem_uofKeys_append]
    constructor
    · rintro ((h | h) | h)
      · exact Or.inl h
      · exact Or.inr ⟨a, List.mem_cons_self a l, h.symm⟩
      · obtain ⟨uofs, hm, hu⟩ := h
        exact Or.inr ⟨uofs, List.mem_cons_of_mem a hm, hu⟩
    · rintro (h | h)
      · exact Or.inl (Or.inl h)
      · obtain ⟨uofs, hm, hu⟩ := h
        rcases List.mem_cons.mp hm with rfl | hm2
        · exact Or.inl (Or.inr hu.symm)
        · exact Or.inr ⟨uofs, hm2, hu⟩

theorem uofLookup_queryUnion (mt : mafsaUnitTable) (u : ID2) :
    ∀ (postings : List (List unitOffsets)) (m : List (ID2 × byteOffsets)),
    uofLookup (postings.foldl (fun m unitsOffsets => unitsOffsets.foldl
        (fun m uofs => uofMapAppend m (mt.Units.getD uofs.Unit default)
          (deltaDecode uofs.byteOffsets)) m) m) u
      = uofLookup m u ++
        ((postings.flatten.filter (fun uofs =>
            mt.Units.getD uofs.Unit default == u)).map
          (fun uofs => deltaDecode uofs.byteOffsets)).flatten := by
  intro postings
  induction postings with
  | nil => intro m; simp
  | cons l ls ih =>
    intro m
    rw [List.foldl_cons, ih, uofLookup_inner_foldl]
    simp [List.filter_append, List.append_assoc]

theorem mem_uofKeys_queryUnion (mt : mafsaUnitTable) (u : ID2) :
    ∀ (postings : List (List unitOffsets)) (m : List (ID2 × byteOffsets)),
    (u ∈ uofKeys (postings.foldl (fun m unitsOffsets => unitsOffsets.foldl
        (fun m uofs => uofMapAppend m (mt.Units.getD uofs.Unit default)
          (deltaDecode uofs.byteOffsets)) m) m) ↔
      u ∈ uofKeys m ∨
        ∃ uofs ∈ postings.flatten, mt.Units.getD uofs.Unit default = u) := by
  intro postings
  induction postings with
  | nil => intro m; simp
  | cons l ls ih =>
    intro m
    rw [List.foldl_cons, ih, mem_uofKeys_inner_foldl]
    simp only [List.flatten_cons, List.mem_append]
    constructor
    · rintro ((h | ⟨uofs, hm, hu⟩) | ⟨uofs, hm, hu⟩)
      · exact Or.inl h
      · exact Or.inr ⟨uofs, Or.inl hm, hu⟩
      · exact Or.inr ⟨uofs, Or.inr hm, hu⟩
    · rintro (h | ⟨uofs, hm | hm, hu⟩)
      · exact Or.inl (Or.inl h)
      · exact Or.inl (Or.inr ⟨uofs, hm, hu⟩)
      · exact Or.inr ⟨uofs, hm, hu⟩

theorem isPrefixOf_map (f : Char → Char) (p q : List Char)
    (h : p.isPrefixOf q = true) :
    (p.map f).isPrefixOf (q.map f) = true := by
  rw [List.isPrefixOf_iff_prefix] at h ⊢
  exact h.map f

/-- Transfer of the query-result map along a flattened-postings subset. -/
theorem queryUnion_subset (mt : mafsaUnitTable)
    (P Q : List (List unitOffsets))
    (h : ∀ uofs, uofs ∈ Q.flatten → uofs ∈ P.flatten) :
    (∀ u, u ∈ uofKeys (queryUnion mt Q) → u ∈ uofKeys (queryUnion mt P)) ∧
    (∀ u v, v ∈ uofLookup (queryUnion mt Q) u →
      v ∈ uofLookup (queryUnion mt P) u) := by
  constructor
  · intro u hu
    rw [queryUnion] at hu ⊢
    rw [mem_uofKeys_queryUnion mt u Q []] at hu
    rw [mem_uofKeys_queryUnion mt u P []]
    rcases hu with hu | ⟨uofs, hm, huof⟩
    · simp [uofKeys] at hu
    · exact Or.inr ⟨uofs, h uofs hm, huof⟩
  · intro u v hv
    rw [queryUnion] at hv ⊢
    rw [uofLookup_queryUnion mt u Q []] at hv
    rw [uofLookup_queryUnion mt u P []]
    have hnil : uofLookup [] u = [] := by simp [uofLookup]
    rw [hnil, List.nil_append] at hv ⊢
    rw [List.mem_flatten] at hv ⊢
    obtain ⟨l, hl, hvl⟩ := hv
    rw [List.mem_map] at hl
    obtain ⟨uofs, hmf, rfl⟩ := hl
    rw [List.mem_filter] at hmf
    refine ⟨deltaDecode uofs.byteOffsets, ?_, hvl⟩
    rw [List.mem_map]
    exact ⟨uofs, List.mem_filter.mpr ⟨h uofs hmf.1, hmf.2⟩, rfl⟩

/-- **C5.** On a well-formed built tree index, `getByQuery` lowercases the
query and walks the MAFSA: it returns `found = false` exactly when the
walk finds no node for the lowercased query (no indexed term extends it);
otherwise it returns the union of the postings `Values[i : i+nn]` of the
extending terms, as a map from `unit.ID2` (through `Units`) to
delta-decoded byte offsets. -/
theorem getByQuery_query_semantics (mt : mafsaUnitTable) (rdy : Bool)
    (terms : List (List Char)) (q : List Char) (ht : mt.t = some terms)
    (hsorted : List.Pairwise (fun a b => lexLt charLt a b = true) terms)
    (hlen : mt.Values.length = terms.length) :
    (getByQuery ⟨some mt, rdy⟩ q = PanicOr.ret none ↔
      indexedTraverse terms (q.map Char.toLower) = none) ∧
    (indexedTraverse terms (q.map Char.toLower) ≠ none →
      getByQuery ⟨some mt, rdy⟩ q = PanicOr.ret (some (queryUnion mt
        (((terms.zip mt.Values).filter
            (fun pr => (q.map Char.toLower).isPrefixOf pr.1)).map
          Prod.snd)))) := by
  have hchar := getByQuery_eq mt rdy terms q ht hsorted hlen
  by_cases hany : (terms.any fun t => (q.map Char.toLower).isPrefixOf t)
      = true
  · rw [hchar, if_pos hany]
    have htrav : indexedTraverse terms (q.map Char.toLower) ≠ none := by
      rw [indexedTraverse, if_pos hany]
      simp
    exact ⟨⟨fun h => by simp at h, fun h => absurd h htrav⟩, fun _ => rfl⟩
  · rw [hchar, if_neg hany]
    have htrav : indexedTraverse terms (q.map Char.toLower) = none := by
      rw [indexedTraverse, if_neg hany]
    exact ⟨⟨fun _ => htrav, fun _ => rfl⟩, fun h => absurd htrav h⟩

/-- Concrete two-term table for the C5/C6 witnesses. -/
def c5terms : List (List Char) := [['a', 'b'], ['a', 'c']]

def c5mt : mafsaUnitTable :=
  { t := some c5terms, B := c5terms, Units := [⟨"t", "u"⟩],
    Values := [[⟨0, [5, 2]⟩], [⟨0, [10, 1]⟩]] }

theorem getByQuery_query_semantics_witness :
    (c5mt.Values.length = c5terms.length ∧
      indexedTraverse c5terms (['A'].map Char.toLower) ≠ none) ∧
    getByQuery ⟨some c5mt, true⟩ ['A']
      = PanicOr.ret (some (queryUnion c5mt
          (((c5terms.zip c5mt.Values).filter
              (fun pr => (['A'].map Char.toLower).isPrefixOf pr.1)).map
            Prod.snd))) :=
  ⟨⟨by decide, by decide⟩,
    (getByQuery_query_semantics c5mt true c5terms ['A'] rfl (by decide)
        (by decide)).2 (by decide)⟩

/-- **C6.** Query monotonicity: when `p` is a prefix of `q` and the
query `q` succeeds on a well-formed built index, the query `p` succeeds
too, every unit in the `q`-result map appears in the `p`-result map, and
each unit's offsets for `q` are a subset of its offsets for `p`. -/
theorem query_monotonicity (mt : mafsaUnitTable) (rdy : Bool)
    (terms : List (List Char)) (p q : List Char) (ht : mt.t = some terms)
    (hsorted : List.Pairwise (fun a b => lexLt charLt a b = true) terms)
    (hlen : mt.Values.length = terms.length)
    (hpq : p.isPrefixOf q = true) (rq : List (ID2 × byteOffsets))
    (hq : getByQuery ⟨some mt, rdy⟩ q = PanicOr.ret (some rq)) :
    ∃ rp, getByQuery ⟨some mt, rdy⟩ p = PanicOr.ret (some rp) ∧
      (∀ u, u ∈ uofKeys rq → u ∈ uofKeys rp) ∧
      (∀ u v, v ∈ uofLookup rq u → v ∈ uofLookup rp u) := by
  have hql := isPrefixOf_map Char.toLower p q hpq
  have hmono : ∀ t : List Char,
      (q.map Char.toLower).isPrefixOf t = true →
      (p.map Char.toLower).isPrefixOf t = true := by
    intro t h
    rw [List.isPrefixOf_iff_prefix] at hql h ⊢
    exact hql.trans h
  have hcharq := getByQuery_eq mt rdy terms q ht hsorted hlen
  have hcharp := getByQuery_eq mt rdy terms p ht hsorted hlen
  by_cases hanyq : (terms.any fun t => (q.map Char.toLower).isPrefixOf t)
      = true
  · have hanyp : (terms.any fun t => (p.map Char.toLower).isPrefixOf t)
        = true := by
      rw [List.any_eq_true] at hanyq ⊢
      obtain ⟨t, htm, hp⟩ := hanyq
      exact ⟨t, htm, hmono t hp⟩
    rw [hcharq, if_pos hanyq] at hq
    rw [hcharp, if_pos hanyp]
    have hrq : rq = queryUnion mt
        (((terms.zip mt.Values).filter
            (fun pr => (q.map Char.toLower).isPrefixOf pr.1)).map
          Prod.snd) := by
      have := hq
      injection this with h2
      injection h2 with h3
      exact h3.symm
    have hmem : ∀ uofs,
        uofs ∈ ((((terms.zip mt.Values).filter
            (fun pr => (q.map Char.toLower).isPrefixOf pr.1)).map
          Prod.snd)).flatten →
        uofs ∈ ((((terms.zip mt.Values).filter
            (fun pr => (p.map Char.toLower).isPrefixOf pr.1)).map
          Prod.snd)).flatten := by
      intro uofs h
      rw [List.mem_flatten] at h ⊢
      obtain ⟨l, hl, hu⟩ := h
      rw [List.mem_map] at hl
      obtain ⟨pr, hpr, rfl⟩ := hl
      rw [List.mem_filter] at hpr
      refine ⟨pr.2, ?_, hu⟩
      rw [List.mem_map]
      exact ⟨pr, List.mem_filter.mpr ⟨hpr.1, hmono pr.1 hpr.2⟩, rfl⟩
    obtain ⟨hkeys, hvals⟩ := queryUnion_subset mt
      (((terms.zip mt.Values).filter
          (fun pr => (p.map Char.toLower).isPrefixOf pr.1)).map Prod.snd)
      (((terms.zip mt.Values).filter
          (fun pr => (q.map Char.toLower).isPrefixOf pr.1)).map Prod.snd)
      hmem
    refine ⟨_, rfl, ?_, ?_⟩
    · intro u hu
      exact hkeys u (hrq ▸ hu)
    · intro u v hv
      exact hvals u v (hrq ▸ hv)
  · rw [hcharq, if_neg hanyq] at hq
    exact absurd hq (by simp)

/-- The result of `getByQuery` on `c5mt` for the query `"ab"`. -/
def c6rq : List (ID2 × byteOffsets) := [(⟨"t", "u"⟩, [5, 7])]

theorem query_monotonicity_witness :
    (['a'].isPrefixOf ['a', 'b'] = true ∧
      getByQuery ⟨some c5mt, true⟩ ['a', 'b']
        = PanicOr.ret (some c6rq)) ∧
    ∃ rp, getByQuery ⟨some c5mt, true⟩ ['a'] = PanicOr.ret (some rp) ∧
      (∀ u, u ∈ uofKeys c6rq → u ∈ uofKeys rp) ∧
      (∀ u v, v ∈ uofLookup c6rq u → v ∈ uofLookup rp u) :=
  ⟨⟨by decide, by decide⟩,
    query_monotonicity c5mt true c5terms ['a'] ['a', 'b'] rfl (by decide)
      (by decide) (by decide) c6rq (by decide)⟩

/-- 256 distinct units with ascending single-char names. -/
def c3Unit (i : Nat) : ID2 :=
  { Typ := "t", Name := String.mk [Char.ofNat (256 + i)] }

/-- 256 per-unit def-query indexes: only the `(Name, Type)`-largest unit
(`c3Unit 255`, the one `Build` drops) has any terms — the single term
`"x"` with byte offset 42. -/
def c3xs : List (ID2 × defQueryIndex) :=
  (List.range 256).map (fun i =>
    (c3Unit i,
     if i == 255 then { mt := { t := some [['x']], Values := [[42]] } }
     else { mt := { t := none, Values := [] } }))

set_option maxRecDepth 4000 in
/-- **C3** (refuted — code bug). `Build` keeps only the first 255 units of
`c3xs` (dropping `c3Unit 255` from `Units`), yet it still traverses every
entry of the input map: the dropped unit's postings are recorded with the
`uint8` zero value `0` as unit number (`unitNums[u]` map miss), so the
query `"x"` returns the dropped unit's offset 42 attributed to
`c3Unit 0` — instead of returning nothing, as the claim (and the code's
own warning that excess units "will not be indexed") requires. -/
theorem treeIndex_truncation_bug :
    ((defQueryTreeIndexBuild c3xs).mt.map (fun mt => mt.Units.length))
      = some 255 ∧
    ((defQueryTreeIndexBuild c3xs).mt.map
        (fun mt => mt.Units.contains (c3Unit 255))) = some false ∧
    getByQuery (defQueryTreeIndexBuild c3xs) ['x']
      = .ret (some [(c3Unit 0, [42])]) ∧
    c3Unit 0 ≠ c3Unit 255 := by decide

/-- **C2** (refuted — code bug). `writeRefs` records
`fbr["A"] = [0, 3, 5]` (absolute start, then the encoded length of each of
file "A"'s refs), but `readRefs` on the very `ref.dat` that `writeRefs`
wrote returns `fbrs["A"] = [0, 3, 8]`: the entry for the second ref of
"A" is 8 (the absolute offset at which file "A" ends), not the encoded
length 5 of that ref, because `readRefs` takes `lastFileRefStartOffset`
from the *last* element of the accumulated range list instead of the
file's start offset. `readRefs` therefore does not reproduce the
fileByteRanges `writeRefs` produced for the same data. -/
theorem readRefs_fbrs_bug :
    (writeRefs demoRefLen demoRefs).1 = demoRefs ∧
    fbrFind (writeRefs demoRefLen demoRefs).2.1 "A" = some [0, 3, 5] ∧
    fbrFind (readRefs demoRefLen (writeRefs demoRefLen demoRefs).1).2.1 "A"
      = some [0, 3, 8] ∧
    demoRefLen (demoRefs.getD 1 default) = 5 := by decide

/-! ## C10: panic discipline of the tree index

`defQueryTreeIndex.Read` (part_000 lines 196-209) and `Build` are the
only operations that set `mt`/`ready`; the lifecycle is modelled as a
fold of operations from the zero-value index. -/

/-- The exported fields `binary.Unmarshal` can fill (the unexported
MinTree pointer `t` is left nil by unmarshalling). -/
structure ReadBytes where
  B : List (List Char)
  Units : List ID2
  Values : List (List unitOffsets)
  deriving DecidableEq, Repr

/-- The outcome of the I/O and decoding steps inside `Read`:
`ioutil.ReadAll` may fail; `binary.Unmarshal` may fail (the partially
filled table is still assigned to `x.mt`); when it succeeds and `B` is
non-empty, the MAFSA decode of `B` may fail. -/
inductive ReadInput where
  | ioError
  | unmarshalError (b : ReadBytes)
  | ok (b : ReadBytes) (decodeOk : Bool)
  deriving DecidableEq, Repr

/-- `defQueryTreeIndex.Read`: returns the new state and whether `Read`
returned nil error. On `ReadAll` failure the receiver is untouched;
otherwise `x.mt` is always assigned, and `x.ready = (err == nil)`. -/
def indexRead (x : defQueryTreeIndex) (inp : ReadInput) :
    defQueryTreeIndex × Bool :=
  match inp with
  | .ioError => (x, false)
  | .unmarshalError b =>
    ({ mt := some { t := none, B := b.B, Units := b.Units,
                    Values := b.Values },
       ready := false }, false)
  | .ok b decodeOk =>
    if b.B.isEmpty then
      ({ mt := some { t := none, B := b.B, Units := b.Units,
                      Values := b.Values },
         ready := true }, true)
    else if decodeOk then
      ({ mt := some { t := some b.B, B := b.B, Units := b.Units,
                      Values := b.Values },
         ready := true }, true)
    else
      ({ mt := some { t := none, B := b.B, Units := b.Units,
                      Values := b.Values },
         ready := false }, false)

/-- A lifecycle operation on a `defQueryTreeIndex`: a successful `Build`,
a `Build` that failed or panicked part-way (the recover leaves `ready`
untouched and `mt` either untouched or assigned mid-build), or a `Read`. -/
inductive IndexOp where
  | build (xs : List (ID2 × defQueryIndex))
  | buildFail (mid : Option mafsaUnitTable)
  | read (inp : ReadInput)

def indexStep (x : defQueryTreeIndex) : IndexOp → defQueryTreeIndex
  | .build xs => defQueryTreeIndexBuild xs
  | .buildFail mid =>
    { mt := match mid with
            | some m => some m
            | none => x.mt,
      ready := x.ready }
  | .read inp => (indexRead x inp).1

/-- The index lifecycle from the zero value. -/
def runOps (ops : List IndexOp) : defQueryTreeIndex :=
  ops.foldl indexStep { mt := none, ready := false }

theorem build_sets_table (xs : List (ID2 × defQueryIndex)) :
    (defQueryTreeIndexBuild xs).mt.isSome = true ∧
    (defQueryTreeIndexBuild xs).ready = true := by
  simp only [defQueryTreeIndexBuild]
  split <;> split <;> simp

/-- The lifecycle invariant: `ready` implies a table is present. -/
theorem runOps_ready_mt (ops : List IndexOp) :
    (runOps ops).ready = true → (runOps ops).mt.isSome = true := by
  suffices h : ∀ (x : defQueryTreeIndex),
      (x.ready = true → x.mt.isSome = true) →
      ((ops.foldl indexStep x).ready = true →
        (ops.foldl indexStep x).mt.isSome = true) from
    h { mt := none, ready := false } (fun h2 => by simp at h2)
  induction ops with
  | nil => intro x hx; exact hx
  | cons op ops ih =>
    intro x hx
    rw [List.foldl_cons]
    refine ih (indexStep x op) ?_
    cases op with
    | build xs =>
      intro _
      exact (build_sets_table xs).1
    | buildFail mid =>
      intro hr
      cases mid with
      | some m => simp [indexStep]
      | none =>
        simp only [indexStep] at hr ⊢
        exact hx hr
    | read inp =>
      intro hr
      cases inp with
      | ioError => exact hx hr
      | unmarshalError b => simp [indexStep, indexRead]
      | ok b decodeOk =>
        simp only [indexStep, indexRead]
        split
        · simp
        · split <;> simp

/-- **C10.** Calling `getByQuery` (or `Write`) on an index whose
`mafsaTable` has not been built or read panics; and in every reachable
lifecycle state with `Ready() = true` (a successful `Build` or `Read`
occurred, since only they set `ready`), the `mt == nil` panic branch of
`getByQuery` and the panic of `Write` are unreachable. -/
theorem treeIndex_panic_safety (ops : List IndexOp) (q : List Char) :
    ((runOps ops).mt = none →
      getByQuery (runOps ops) q = PanicOr.panic "mafsaTable not built/read" ∧
      indexWrite (runOps ops) = PanicOr.panic "no mafsaTable to write") ∧
    ((runOps ops).ready = true →
      getByQuery (runOps ops) q ≠ PanicOr.panic "mafsaTable not built/read" ∧
      indexWrite (runOps ops) ≠ PanicOr.panic "no mafsaTable to write") := by
  constructor
  · intro hnone
    constructor
    · rw [getByQuery]
      split
      · rfl
      · rename_i mt hmt
        rw [hnone] at hmt
        exact Option.noConfusion hmt
    · rw [indexWrite]
      split
      · rfl
      · rename_i mt hmt
        rw [hnone] at hmt
        exact Option.noConfusion hmt
  · intro hready
    have hsome := runOps_ready_mt ops hready
    obtain ⟨mt, hmt⟩ := Option.isSome_iff_exists.mp hsome
    constructor
    · rw [getByQuery, hmt]
      cases ht : mt.t with
      | none => simp [ht]
      | some terms =>
        cases htr : indexedTraverse terms (q.map Char.toLower) with
        | none => simp [ht, htr]
        | some pr => simp [ht, htr]
    · rw [indexWrite, hmt]
      simp

/-! ## C8: file-handle discipline

Every reader/writer in fs_store.go follows one pattern:

    f, err := open(...)
    if err != nil { return ..., err }            // no handle was opened
    defer func() { err2 := f.Close(); if err == nil { err = err2 } }()
    ... body (encode/decode loop, may fail) ...

`withFile` is that pattern; each operation instantiates it with its own
body over an error oracle, and the list of handle events is returned
alongside the result. -/

inductive FEvent where
  | opened
  | closed
  deriving DecidableEq, Repr

inductive GoErr where
  | notExist
  | unitNoInit
  | ioErr (code : Nat)
  | decodeErr (code : Nat)
  deriving DecidableEq, Repr

/-- The open / deferred-close pattern (fs_store.go lines 380-389 and
their twins): on open failure no handle exists and no close happens; on
success the handle is closed whatever the body does, and `err2 :=
f.Close()` replaces the returned error only when the body's `err` was
nil. -/
def withFile {α : Type} (openRes : Option GoErr) (body : Except GoErr α)
    (closeErr : Option GoErr) : Except GoErr α × List FEvent :=
  match openRes with
  | some e => (.error e, [])
  | none =>
    (match body with
     | .error e => .error e
     | .ok a =>
       match closeErr with
       | some e2 => .error e2
       | none => .ok a,
     [.opened, .closed])

/-- The sequential decode loop: `Decode` until EOF (end of the list),
propagating the first error. -/
def decodeAll {α : Type} : List (Except GoErr α) → Except GoErr (List α)
  | [] => .ok []
  | .error e :: _ => .error e
  | .ok a :: rest => (decodeAll rest).map (a :: ·)

/-- The streaming encode loop, stopping at the first `Encode` error. -/
def encodeAll {α : Type} (encErr : α → Option GoErr) :
    List α → Except GoErr Unit
  | [] => .ok ()
  | a :: rest =>
    match encErr a with
    | some e => .error e
    | none => encodeAll encErr rest

/-- Body of `writeDefs`/`writeRefs`: encode every record, then
`bw.Flush()`; on success yield the offsets computed by the pure model. -/
def writeBody {α β : Type} (encErr : α → Option GoErr)
    (flushErr : Option GoErr) (done : β) (items : List α) :
    Except GoErr β :=
  match encodeAll encErr items with
  | .error e => .error e
  | .ok _ =>
    match flushErr with
    | some e => .error e
    | none => .ok done

/-- `fsUnitStore.Defs` with its I/O shell (lines 378-405). -/
def fsDefsRun (openRes closeErr : Option GoErr)
    (items : List (Except GoErr Def)) (filters : List (Def → Bool)) :
    Except GoErr (List Def) × List FEvent :=
  withFile openRes
    ((decodeAll items).map (fun ds => ds.filter fun d => filters.all (· d)))
    closeErr

/-- `fsUnitStore.Refs` with its I/O shell (lines 480-507). -/
def fsRefsRun (openRes closeErr : Option GoErr)
    (items : List (Except GoErr Ref)) (filters : List (Ref → Bool)) :
    Except GoErr (List Ref) × List FEvent :=
  withFile openRes
    ((decodeAll items).map (fun rs => rs.filter fun r => filters.all (· r)))
    closeErr

/-- `fsUnitStore.readDefs` with its I/O shell (lines 447-478). -/
def readDefsRun (encLen : Def → Nat) (openRes closeErr : Option GoErr)
    (items : List (Except GoErr Def)) :
    Except GoErr (List Def × byteOffsets) × List FEvent :=
  withFile openRes ((decodeAll items).map (readDefs encLen)) closeErr

/-- `fsUnitStore.readRefs` with its I/O shell (lines 622-673). -/
def readRefsRun (encLen : Ref → Nat) (openRes closeErr : Option GoErr)
    (items : List (Except GoErr Ref)) :
    Except GoErr (List Ref × fileByteRanges × byteOffsets) × List FEvent :=
  withFile openRes ((decodeAll items).map (readRefs encLen)) closeErr

/-- `fsUnitStore.writeDefs` with its I/O shell (lines 689-719). -/
def writeDefsRun (encLen : Def → Nat) (encErr : Def → Option GoErr)
    (flushErr openRes closeErr : Option GoErr) (defs : List Def) :
    Except GoErr byteOffsets × List FEvent :=
  withFile openRes
    (writeBody encErr flushErr (writeDefs encLen defs).2 defs) closeErr

/-- `fsUnitStore.writeRefs` with its I/O shell (lines 722-779); the sort
happens before any encoding. -/
def writeRefsRun (encLen : Ref → Nat) (encErr : Ref → Option GoErr)
    (flushErr openRes closeErr : Option GoErr) (refs : List Ref) :
    Except GoErr (fileByteRanges × byteOffsets) × List FEvent :=
  withFile openRes
    (writeBody encErr flushErr (writeRefs encLen refs).2
      (sortBy refLe refs)) closeErr

/-- `unit.SourceUnit` manifest (the engine only reads `(Type, Name)`). -/
structure SourceUnit where
  Typ : String
  Name : String
  deriving DecidableEq, Repr

/-- `fsTreeStore.openUnitFile` (lines 258-276): an `os.IsNotExist` open
error is surfaced as `errUnitNoInit` and no handle exists; otherwise the
usual pattern with a one-record decode body. -/
def openUnitFileRun (openRes closeErr : Option GoErr)
    (decodeRes : Except GoErr SourceUnit) :
    Except GoErr SourceUnit × List FEvent :=
  match openRes with
  | some e =>
    (.error (if e = GoErr.notExist then GoErr.unitNoInit else e), [])
  | none => withFile none decodeRes closeErr

/-- The property claimed for one operation run: the handle-event trace is
balanced on every exit path, and the close error reaches the caller only
when the body produced no error. -/
def handleDiscipline {α : Type} (run : Except GoErr α × List FEvent)
    (openRes : Option GoErr) (body : Except GoErr α)
    (closeErr : Option GoErr) : Prop :=
  (run.2.count FEvent.opened = run.2.count FEvent.closed) ∧
  (openRes = none → run.2 = [FEvent.opened, FEvent.closed]) ∧
  (openRes ≠ none → run.2 = []) ∧
  (openRes = none → ∀ e, body = Except.error e →
    run.1 = Except.error e) ∧
  (openRes = none → ∀ a, body = Except.ok a →
    run.1 = match closeErr with
            | some e2 => Except.error e2
            | none => Except.ok a)

theorem withFile_handleDiscipline {α : Type}
    (openRes closeErr : Option GoErr) (body : Except GoErr α) :
    handleDiscipline (withFile openRes body closeErr) openRes body
      closeErr := by
  cases openRes with
  | some e =>
    exact ⟨rfl, fun h => Option.noConfusion h, fun _ => rfl,
      fun h => Option.noConfusion h, fun h => Option.noConfusion h⟩
  | none =>
    refine ⟨rfl, fun _ => rfl, fun h => absurd rfl h, ?_, ?_⟩
    · intro _ e he
      cases body with
      | error e2 =>
        cases he
        rfl
      | ok a => exact Except.noConfusion he
    · intro _ a ha
      cases body with
      | error e2 => exact Except.noConfusion ha
      | ok a2 =>
        cases ha
        cases closeErr <;> rfl

/-- **C8.** Every file-writing and file-reading operation of the unit and
tree stores (`writeDefs`, `writeRefs`, `Defs`, `Refs`, `readDefs`,
`readRefs`, `openUnitFile`) closes its opened file handle on every exit
path, success or failure, and the error from `Close` is returned to the
caller only when no prior error exists — a prior encode/decode error is
never overwritten by the close error. -/
theorem file_handle_discipline (openRes closeErr flushErr : Option GoErr)
    (encD : Def → Nat) (encR : Ref → Nat) (encErrD : Def → Option GoErr)
    (encErrR : Ref → Option GoErr) (dItems : List (Except GoErr Def))
    (rItems : List (Except GoErr Ref)) (defs : List Def) (refs : List Ref)
    (dFilters : List (Def → Bool)) (rFilters : List (Ref → Bool))
    (decodeRes : Except GoErr SourceUnit) :
    handleDiscipline (fsDefsRun openRes closeErr dItems dFilters) openRes
      ((decodeAll dItems).map (fun ds => ds.filter fun d =>
        dFilters.all (· d))) closeErr ∧
    handleDiscipline (fsRefsRun openRes closeErr rItems rFilters) openRes
      ((decodeAll rItems).map (fun rs => rs.filter fun r =>
        rFilters.all (· r))) closeErr ∧
    handleDiscipline (readDefsRun encD openRes closeErr dItems) openRes
      ((decodeAll dItems).map (readDefs encD)) closeErr ∧
    handleDiscipline (readRefsRun encR openRes closeErr rItems) openRes
      ((decodeAll rItems).map (readRefs encR)) closeErr ∧
    handleDiscipline
      (writeDefsRun encD encErrD flushErr openRes closeErr defs) openRes
      (writeBody encErrD flushErr (writeDefs encD defs).2 defs) closeErr ∧
    handleDiscipline
      (writeRefsRun encR encErrR flushErr openRes closeErr refs) openRes
      (writeBody encErrR flushErr (writeRefs encR refs).2
        (sortBy refLe refs)) closeErr ∧
    handleDiscipline (openUnitFileRun openRes closeErr decodeRes) openRes
      decodeRes closeErr := by
  refine ⟨withFile_handleDiscipline _ _ _, withFile_handleDiscipline _ _ _,
    withFile_handleDiscipline _ _ _, withFile_handleDiscipline _ _ _,
    withFile_handleDiscipline _ _ _, withFile_handleDiscipline _ _ _, ?_⟩
  cases openRes with
  | some e =>
    exact ⟨rfl, fun h => Option.noConfusion h, fun _ => rfl,
      fun h => Option.noConfusion h, fun h => Option.noConfusion h⟩
  | none => exact withFile_handleDiscipline none closeErr decodeRes

theorem file_handle_discipline_witness :
    ((Option.none : Option GoErr) = none) ∧
    (fsDefsRun none (some (GoErr.ioErr 1))
        [Except.error (GoErr.decodeErr 7)] []).2
      = [FEvent.opened, FEvent.closed] ∧
    (fsDefsRun none (some (GoErr.ioErr 1))
        [Except.error (GoErr.decodeErr 7)] []).1
      = Except.error (GoErr.decodeErr 7) :=
  ⟨rfl,
   (file_handle_discipline none (some (GoErr.ioErr 1)) none demoDefLen
      demoRefLen (fun _ => none) (fun _ => none)
      [Except.error (GoErr.decodeErr 7)] [] [] [] [] []
      (Except.ok ⟨"t", "u"⟩)).1.2.1 rfl,
   (file_handle_discipline none (some (GoErr.ioErr 1)) none demoDefLen
      demoRefLen (fun _ => none) (fun _ => none)
      [Except.error (GoErr.decodeErr 7)] [] [] [] [] []
      (Except.ok ⟨"t", "u"⟩)).1.2.2.2.1 rfl (GoErr.decodeErr 7) rfl⟩

/-! ## C7 / C9: `fsMultiRepoStore.Repos`

Byte-level model: Go strings are byte slices here because the `after`
computation (fs_store.go lines 79-88) manipulates individual bytes and
re-encodes a rune. A path is a `List Nat` of byte values. -/

abbrev Bytes := List Nat

def natLt (a b : Nat) : Bool := decide (a < b)

/-- Byte-wise (Go) comparison of byte strings. -/
def bytesLt (a b : Bytes) : Bool := lexLt natLt a b

/-- Go `string(r)` for a rune `r`: UTF-8 encoding; an invalid (negative)
rune encodes as U+FFFD (`EF BF BD`). Only runes below 0x10000 arise here
(`r` is a byte value minus one). -/
def utf8EncodeRune (r : Int) : Bytes :=
  if r < 0 then [0xEF, 0xBF, 0xBD]
  else
    let n := r.toNat
    if n < 0x80 then [n]
    else if n < 0x800 then [0xC0 + n / 64, 0x80 + n % 64]
    else [0xE0 + n / 4096, 0x80 + n / 64 % 64, 0x80 + n % 64]

/-- `fs.Join` of slash-free components (slash byte 0x2F between them). -/
def joinPath (comps : List Bytes) : Bytes :=
  match comps with
  | [] => []
  | c :: rest => rest.foldl (fun acc d => acc ++ [0x2F] ++ d) c

/-- Lines 79-88: the `after` string for a scoped repo — the last
component's final byte is decremented as a rune and `"\xff"` appended, so
that `after` is intended to sort just before the scoped repo's path.
(Go indexes the byte and would panic on an empty component; the model's
`getLastD` default is only reached outside the claim's hypotheses.) -/
def reposAfter (comps : List Bytes) : Bytes :=
  let comps2 :=
    if comps.isEmpty then comps
    else
      let lastComp := comps.getLastD []
      let lastComp2 := lastComp.dropLast
        ++ utf8EncodeRune ((lastComp.getLastD 0 : Int) - 1) ++ [0xFF]
      comps.dropLast ++ [lastComp2]
  joinPath comps2

/-- Modelled from the spec: `ListRepoPaths` of the multi-repo store's
`RepoPaths` configuration is not under `src/`. Spec §4.5: "lists via a
walkable directory scan, optionally scoped ... list one entry with a
lex-predecessor prefix `after`": the stored paths in lexicographic walk
order that sort strictly after `after`, at most `max` of them when
`max > 0`. -/
def listRepoPaths (stored : List Bytes) (after : Bytes) (max : Nat) :
    List Bytes :=
  let ps := stored.filter (fun p => bytesLt after p)
  if max > 0 then ps.take max else ps

/-- `fsMultiRepoStore.Repos` (fs_store.go lines 65-104). `scopeRepos`
(the repos the filters scope to) and the `RepoToPath`/`PathToRepo`/
`SelectRepo` hooks are parameters (modelled from the spec: their
implementations are not under `src/`). The returned Bool records whether
the filesystem was consulted (`ListRepoPaths` reached). -/
def fsRepos (RepoToPath : Bytes → List Bytes) (PathToRepo : Bytes → Bytes)
    (SelectRepo : Bytes → Bool) (stored : List Bytes)
    (scopeRepos : List Bytes) : List Bytes × Bool :=
  if scopeRepos.length > 1 then ([], false)
  else
    let am : Bytes × Nat :=
      match scopeRepos with
      | [r] => (reposAfter (RepoToPath r), 1)
      | _ => ([], 0)
    let paths := listRepoPaths stored am.1 am.2
    ((paths.map PathToRepo).filter SelectRepo, true)

/-- Prefix-congruence of the byte order: a strictly smaller head byte
after a common prefix decides the comparison. -/
theorem lexLt_append_head {α : Type} [DecidableEq α] (lt : α → α → Bool)
    (Q : List α) (x y : α) (hxy : lt x y = true) (s t : List α) :
    lexLt lt (Q ++ x :: s) (Q ++ y :: t) = true := by
  induction Q with
  | nil => simp [lexLt, hxy]
  | cons a Q ih => simp [lexLt, ih]

/-- Any byte string strictly between `Q ++ [b-1, 0xFF]` and `Q ++ [b]`
contains a byte ≥ 0xFF. -/
theorem between_has_big_byte (b : Nat) (hb : 1 ≤ b) :
    ∀ (Q p : Bytes), bytesLt (Q ++ [b - 1, 0xFF]) p = true →
      bytesLt p (Q ++ [b]) = true → ∃ d ∈ p, 0xFF ≤ d := by
  intro Q
  induction Q with
  | nil =>
    intro p h1 h2
    cases p with
    | nil => simp [bytesLt, lexLt] at h1
    | cons c p2 =>
      simp only [bytesLt, List.nil_append, lexLt, natLt, Bool.or_eq_true,
        Bool.and_eq_true, decide_eq_true_eq] at h1 h2
      have hc : c < b := by
        rcases h2 with h2 | ⟨rfl, h2⟩
        · exact h2
        · cases p2 with
          | nil => simp [lexLt] at h2
          | cons d p3 => simp [lexLt] at h2
      rcases h1 with h1 | ⟨hbc, h1⟩
      · omega
      · cases p2 with
        | nil => simp [lexLt] at h1
        | cons d p3 =>
          simp only [lexLt, natLt, Bool.or_eq_true, Bool.and_eq_true,
            decide_eq_true_eq] at h1
          rcases h1 with h1 | ⟨rfl, h1⟩
          · exact ⟨d, by simp, by omega⟩
          · exact ⟨0xFF, by simp, le_refl _⟩
  | cons a Q ih =>
    intro p h1 h2
    cases p with
    | nil => simp [bytesLt, lexLt] at h1
    | cons c p2 =>
      simp only [bytesLt, List.cons_append, lexLt, natLt, Bool.or_eq_true,
        Bool.and_eq_true, decide_eq_true_eq] at h1 h2
      rcases h1 with h1 | ⟨rfl, h1⟩
      · rcases h2 with h2 | ⟨h2, _⟩
        · omega
        · omega
      · rcases h2 with h2 | ⟨_, h2⟩
        · omega
        · obtain ⟨d, hd, hdge⟩ := ih p2 h1 h2
          exact ⟨d, List.mem_cons_of_mem _ hd, hdge⟩

/-- In a sorted path list, the first path after `after` is `path` when
`path` qualifies and no stored path strictly between exists. -/
theorem take_one_filter_sorted (after path : Bytes) :
    ∀ stored : List Bytes,
    stored.Pairwise (fun a c => bytesLt a c = true) →
    path ∈ stored → bytesLt after path = true →
    (∀ p ∈ stored, bytesLt after p = true → bytesLt p path = false) →
    (stored.filter (fun p => bytesLt after p)).take 1 = [path] := by
  intro stored
  induction stored with
  | nil => intro _ hmem; simp at hmem
  | cons s rest ih =>
    intro hsorted hmem hpa hmin
    rw [List.pairwise_cons] at hsorted
    obtain ⟨hall, hrest⟩ := hsorted
    rcases List.mem_cons.mp hmem with rfl | hmem2
    · rw [List.filter_cons, if_pos hpa]
      simp
    · have hsp : bytesLt s path = true := hall path hmem2
      have hdrop : bytesLt after s = false := by
        cases hx : bytesLt after s with
        | false => rfl
        | true =>
          have := hmin s (List.mem_cons_self s rest) hx
          rw [hsp] at this
          exact Bool.noConfusion this
      rw [List.filter_cons, if_neg (by simp [hdrop])]
      exact ih hrest hmem2 hpa
        (fun p hp hap => hmin p (List.mem_cons_of_mem s hp) hap)

/-- The joined prefix contributed by the leading components. -/
def pj (cs : List Bytes) : Bytes :=
  match cs with
  | [] => []
  | _ => joinPath cs ++ [0x2F]

theorem joinPath_concat (cs : List Bytes) (x : Bytes) :
    joinPath (cs ++ [x]) = pj cs ++ x := by
  cases cs with
  | nil => simp [joinPath, pj]
  | cons c rest =>
    simp only [joinPath, pj, List.cons_append, List.foldl_append,
      List.foldl_cons, List.foldl_nil]

theorem utf8EncodeRune_small (b : Nat) (hb1 : 1 ≤ b) (hb2 : b ≤ 0x80) :
    utf8EncodeRune ((b : Int) - 1) = [b - 1] := by
  rw [utf8EncodeRune, if_neg (by omega)]
  have ht : ((b : Int) - 1).toNat = b - 1 := by omega
  simp only [ht]
  rw [if_pos (by omega)]

theorem reposAfter_eq (cs : List Bytes) (lcInit : Bytes) (b : Nat)
    (hb1 : 1 ≤ b) (hb2 : b ≤ 0x80) :
    reposAfter (cs ++ [lcInit ++ [b]])
      = (pj cs ++ lcInit) ++ [b - 1, 0xFF] := by
  rw [reposAfter]
  have hne : (cs ++ [lcInit ++ [b]]).isEmpty = false := by
    cases cs <;> simp
  simp only [hne, Bool.false_eq_true, if_false,
    List.getLastD_concat, List.dropLast_concat,
    utf8EncodeRune_small b hb1 hb2, joinPath_concat]
  simp [List.append_assoc]

/-- **C9** (implicit claim). Whenever the filters scope to more than one
distinct repo, `Repos` returns an empty result and nil error without
consulting the filesystem at all (the scan flag stays `false`). -/
theorem repos_multi_scope_no_fs (RepoToPath : Bytes → List Bytes)
    (PathToRepo : Bytes → Bytes) (SelectRepo : Bytes → Bool)
    (stored scopeRepos : List Bytes)
    (h : 1 < scopeRepos.dedup.length) :
    fsRepos RepoToPath PathToRepo SelectRepo stored scopeRepos
      = ([], false) := by
  have hlen : 1 < scopeRepos.length :=
    lt_of_lt_of_le h (List.Sublist.length_le (List.dedup_sublist _))
  unfold fsRepos
  rw [if_pos hlen]

theorem repos_multi_scope_no_fs_witness :
    1 < ([[1], [2]] : List Bytes).dedup.length ∧
    fsRepos (fun r => [r]) id (fun _ => true) [] [[1], [2]]
      = ([], false) :=
  ⟨by decide,
   repos_multi_scope_no_fs (fun r => [r]) id (fun _ => true) [] [[1], [2]]
     (by decide)⟩

/-- **C7** (counterexample). Three stores whose repos have non-empty path
components yet scoped `Repos` does not return `[r]`: (1) repo `"a\x00"` —
`after` = `61 EF BF BD FF` (the decremented rune is invalid and encodes
as U+FFFD) sorts *after* the repo's path `61 00`; (2) repo `"a\x90"` —
the decremented rune re-encodes as the two bytes `C2 8F`, so `after` =
`61 C2 8F FF` sorts after `61 90`; (3) repo `"a"` with another stored
path `60 FF 10` strictly between `after` = `60 FF` and `61`: the scan
yields the other path and the filter discards it. -/
theorem repos_scoped_lookup_bug :
    (bytesLt (reposAfter [[0x61, 0x00]]) (joinPath [[0x61, 0x00]]) = false ∧
      fsRepos (fun r => [r]) id (fun r => r == [0x61, 0x00])
        [[0x61, 0x00]] [[0x61, 0x00]] = ([], true)) ∧
    (bytesLt (reposAfter [[0x61, 0x90]]) (joinPath [[0x61, 0x90]]) = false ∧
      fsRepos (fun r => [r]) id (fun r => r == [0x61, 0x90])
        [[0x61, 0x90]] [[0x61, 0x90]] = ([], true)) ∧
    fsRepos (fun r => [r]) id (fun r => r == [0x61])
      [[0x60, 0xFF, 0x10], [0x61]] [[0x61]] = ([], true) := by decide

/-- **C7** (amended). For a repo `r` stored in the multi-repo store whose
path components are non-empty, whose path's final byte `b` satisfies
`1 ≤ b ≤ 0x80`, and where every stored path is free of bytes ≥ 0xFF (in
particular ASCII paths): `Repos` scoped to exactly `r` computes an
`after` string sorting strictly before `r`'s joined path, lists at most
one path starting after it, and returns exactly `[r]`. -/
theorem repos_scoped_exact (RepoToPath : Bytes → List Bytes)
    (PathToRepo : Bytes → Bytes) (SelectRepo : Bytes → Bool)
    (stored : List Bytes) (r : Bytes) (cs : List Bytes) (lcInit : Bytes)
    (b : Nat) (hcomps : RepoToPath r = cs ++ [lcInit ++ [b]])
    (hb1 : 1 ≤ b) (hb2 : b ≤ 0x80)
    (hbytes : ∀ p ∈ stored, ∀ d ∈ p, d < 0xFF)
    (hsorted : stored.Pairwise (fun a c => bytesLt a c = true))
    (hmem : joinPath (RepoToPath r) ∈ stored)
    (hinv : PathToRepo (joinPath (RepoToPath r)) = r)
    (hsel : SelectRepo r = true) :
    bytesLt (reposAfter (RepoToPath r)) (joinPath (RepoToPath r)) = true ∧
    (listRepoPaths stored (reposAfter (RepoToPath r)) 1).length ≤ 1 ∧
    fsRepos RepoToPath PathToRepo SelectRepo stored [r] = ([r], true) := by
  have hafter : reposAfter (RepoToPath r)
      = (pj cs ++ lcInit) ++ [b - 1, 0xFF] := by
    rw [hcomps, reposAfter_eq cs lcInit b hb1 hb2]
  have hpath : joinPath (RepoToPath r) = (pj cs ++ lcInit) ++ [b] := by
    rw [hcomps, joinPath_concat]
    simp [List.append_assoc]
  have hlt : bytesLt (reposAfter (RepoToPath r))
      (joinPath (RepoToPath r)) = true := by
    rw [hafter, hpath]
    exact lexLt_append_head natLt (pj cs ++ lcInit) (b - 1) b
      (by simp only [natLt, decide_eq_true_eq]; omega) [0xFF] []
  have hmin : ∀ p ∈ stored,
      bytesLt (reposAfter (RepoToPath r)) p = true →
      bytesLt p (joinPath (RepoToPath r)) = false := by
    intro p hp hap
    cases hx : bytesLt p (joinPath (RepoToPath r)) with
    | false => rfl
    | true =>
      rw [hafter] at hap
      rw [hpath] at hx
      obtain ⟨d, hd, hdge⟩ :=
        between_has_big_byte b hb1 (pj cs ++ lcInit) p hap hx
      have := hbytes p hp d hd
      omega
  have htake := take_one_filter_sorted (reposAfter (RepoToPath r))
    (joinPath (RepoToPath r)) stored hsorted hmem hlt hmin
  refine ⟨hlt, ?_, ?_⟩
  · rw [listRepoPaths]
    simp only [gt_iff_lt, Nat.lt_irrefl, zero_lt_one, if_true]
    exact le_trans (List.length_take_le 1 _) (le_refl 1)
  · unfold fsRepos
    rw [if_neg (by simp)]
    simp only [listRepoPaths, gt_iff_lt, zero_lt_one, if_true]
    rw [htake]
    simp [hinv, hsel]

theorem repos_scoped_exact_witness :
    ((fun r => [r]) ([0x61, 0x62] : Bytes) = [] ++ [[0x61] ++ [0x62]]) ∧
    fsRepos (fun r => [r]) id (fun r => r == [0x61, 0x62])
      [[0x61, 0x62]] [[0x61, 0x62]] = ([[0x61, 0x62]], true) :=
  ⟨rfl,
   (repos_scoped_exact (fun r => [r]) id (fun r => r == [0x61, 0x62])
      [[0x61, 0x62]] [0x61, 0x62] [] [0x61] 0x62 rfl (by decide)
      (by decide) (by decide) (by decide) (by decide) (by decide)
      (by decide)).2.2⟩

def c10xs : List (ID2 × defQueryIndex) :=
  [(⟨"t", "u"⟩, ⟨⟨some [['x']], [[7]]⟩⟩)]

theorem treeIndex_panic_safety_witness :
    (getByQuery (runOps []) ['x']
        = PanicOr.panic "mafsaTable not built/read" ∧
      indexWrite (runOps [])
        = PanicOr.panic "no mafsaTable to write") ∧
    ((runOps [IndexOp.build c10xs]).ready = true ∧
      getByQuery (runOps [IndexOp.build c10xs]) ['x']
        ≠ PanicOr.panic "mafsaTable not built/read" ∧
      indexWrite (runOps [IndexOp.build c10xs])
        ≠ PanicOr.panic "no mafsaTable to write") :=
  ⟨(treeIndex_panic_safety [] ['x']).1 rfl,
   by decide,
   (treeIndex_panic_safety [IndexOp.build c10xs] ['x']).2 (by decide)⟩

end Srclib
